import Mathlib

/-!
Verification of the change-log reconciliation core of the file-upload-system
repository (`app/services/athena_service.py`).

The Python code is shallowly embedded:

* a Python `dict` with string keys is an association list whose update
  operation (`dictSet`) replaces the value of the first matching key in
  place and appends unknown keys at the end, exactly like CPython dicts
  (which preserve insertion order and keep the position of a key on
  re-assignment);
* table rows as they live in memory before persistence may hold `None`
  values, so they are `List (String × Option String)`; rows coming back
  from the query executor are plain strings, `List (String × String)`;
* the ambient effects of the service (current timestamp, session token,
  md5, S3/query-executor results) are threaded as explicit parameters;
* Python string scans are performed on `List Char`.
-/

namespace AthenaService

/-- A row as returned by the query executor: ordered field -> string. -/
abbrev Dict := List (String × String)

/-- An in-memory row before persistence; `none` models a Python `None`. -/
abbrev Row := List (String × Option String)

/-- Python dict assignment `d[k] = v`: replace the first binding of `k`
in place, else append the new binding at the end. -/
def dictSet {α β : Type} [DecidableEq α] : List (α × β) → α → β → List (α × β)
  | [], k, v => [(k, v)]
  | p :: rest, k, v => if p.1 = k then (k, v) :: rest else p :: dictSet rest k v

/-- Python `d.get(k, dflt)`. -/
def dictGetD (d : Dict) (k dflt : String) : String :=
  (d.lookup k).getD dflt

/-- Python `d.update(kvs)` applied binding by binding. -/
def pyUpdate {β : Type} (d kvs : List (String × β)) : List (String × β) :=
  kvs.foldl (fun acc p => dictSet acc p.1 p.2) d

/-- The whitespace set stripped by Python `str.strip()`. -/
def isPyWs (c : Char) : Bool :=
  c == ' ' || c == '\t' || c == '\n' || c == '\r' || c == '\x0b' || c == '\x0c'

/-- Drop matching characters from the right end. -/
def dropWhileEnd (p : Char → Bool) (l : List Char) : List Char :=
  (l.reverse.dropWhile p).reverse

/-- Python `str.strip(chars)`: drop matching characters from both ends. -/
def pyStrip (p : Char → Bool) (l : List Char) : List Char :=
  dropWhileEnd p (l.dropWhile p)

/-- Python `str.replace(c, two-char escape)` for a one-character needle,
as used by `_convert_json_to_struct` for `','` and `'|'`. -/
def escOne (needle esc : Char) (l : List Char) : List Char :=
  l.flatMap (fun c => if c = needle then [esc, c] else [c])

/-- Escaping done by `_convert_json_to_struct` on each value:
`str(value).replace(',', '\\,').replace('|', '\\|')`. -/
def escapeStructVal (l : List Char) : List Char :=
  escOne '|' '\\' (escOne ',' '\\' l)

/-- Python `str.replace(ab, c)` for a two-character needle, as used by
`_parse_comma_separated_struct` to unescape `'\\,'` and `'\\|'`. -/
def replace2 (n1 n2 r : Char) : List Char → List Char
  | [] => []
  | [c] => [c]
  | c1 :: c2 :: rest =>
    if c1 = n1 ∧ c2 = n2 then r :: replace2 n1 n2 r rest
    else c1 :: replace2 n1 n2 r (c2 :: rest)

/-- The backslash-aware character scan of `_parse_comma_separated_struct`:
split on unescaped commas, a backslash makes the following character
literal, a trailing lone backslash is dropped, and the final accumulated
value is emitted only when non-empty. -/
def splitEsc : List Char → List Char → List (List Char)
  | [], cur => if cur = [] then [] else [cur]
  | c :: rest, cur =>
    if c = '\\' then
      match rest with
      | [] => if cur = [] then [] else [cur]
      | c2 :: rest2 => splitEsc rest2 (cur ++ [c2])
    else if c = ',' then cur :: splitEsc rest []
    else splitEsc rest (cur ++ [c])

/-- The fixed 8-field struct schema of the change log
(`struct_fields` in `_convert_json_to_struct` and the two parsers). -/
def structFields : List String :=
  ["id", "first_name", "last_name", "email", "gender", "ip_address", "is_active", "data"]

/-- The value `_convert_json_to_struct` reads for a schema field:
`str(data.get(field, ''))`, where the JSON round trip keeps string
values and `None` intact, and `str(None)` is the text `None`. -/
def jsonFieldStr (m : Row) (f : String) : String :=
  match m.lookup f with
  | some (some s) => s
  | some none => "None"
  | none => ""

/-- Python `','.join` on already-escaped values. -/
def joinSep (sep : Char) : List (List Char) → List Char
  | [] => []
  | [v] => v
  | v :: vs => v ++ sep :: joinSep sep vs

/-- `_convert_json_to_struct`: the empty JSON object (and the failure to
parse, which cannot arise for a serialized dict) yields the empty string;
otherwise the eight schema values are escaped and joined with commas. -/
def convertJsonToStruct (m : Row) : String :=
  if m.isEmpty then ""
  else String.mk (joinSep ',' (structFields.map (fun f => escapeStructVal (jsonFieldStr m f).data)))

/-- Python `\w` on the ASCII inputs exercised here. -/
def isWordChar (c : Char) : Bool :=
  c.isAlphanum || c == '_'

/-- The lookahead `(?=\s+\w+=|$)` of `_parse_athena_struct_format`'s regex:
end of input, or one-plus whitespace then one-plus word characters then `=`. -/
def lookaheadOk : List Char → Bool
  | [] => true
  | c :: rest =>
    isPyWs c &&
      (let t := (c :: rest).dropWhile isPyWs
       let w := t.takeWhile isWordChar
       decide (w ≠ []) && (t.drop w.length).head? == some '=')

/-- The lazy value group `([^=]*?)` of the regex: extend the value one
non-`=` character at a time until the lookahead succeeds. -/
def grabValue : List Char → List Char → Option (List Char × List Char)
  | [], acc => some (acc, [])
  | c :: rest, acc =>
    if lookaheadOk (c :: rest) then some (acc, c :: rest)
    else if c = '=' then none
    else grabValue rest (acc ++ [c])

theorem grabValue_rest_length :
    ∀ cs acc v r, grabValue cs acc = some (v, r) → r.length ≤ cs.length := by
  intro cs
  induction cs with
  | nil =>
    intro acc v r h
    simp [grabValue] at h
    simp [h.2]
  | cons c rest ih =>
    intro acc v r h
    by_cases hla : lookaheadOk (c :: rest) = true
    · simp [grabValue, hla] at h
      obtain ⟨-, h2⟩ := h
      subst h2
      simp
    · by_cases he : c = '='
      · subst he
        simp [grabValue, hla] at h
      · simp [grabValue, hla, he] at h
        have := ih (acc ++ [c]) v r h
        simp only [List.length_cons]
        omega

/-- Prefix of word characters in front of the scan position. -/
def wordRun (cs : List Char) : List Char :=
  cs.takeWhile isWordChar

/-- The scan of `re.findall(r'(\w+)=([^=]*?)(?=\s+\w+=|$)', content)`,
with an explicit fuel for structural recursion: a match needs a maximal
word run immediately followed by `=` (shorter runs are followed by a
word character, so the greedy `\w+` admits only the maximal run), then
the lazy value; on failure the scan advances one character, on success
it resumes after the value.  Every step strictly shortens the input
(`grabValue_rest_length` bounds the resume point), so fuel equal to the
input length never runs out and the zero-fuel branch is unreachable. -/
def findAllKVAux : Nat → List Char → List (List Char × List Char)
  | 0, _ => []
  | _, [] => []
  | fuel + 1, c0 :: rest =>
    if (wordRun (c0 :: rest) ≠ []
        ∧ ((c0 :: rest).drop (wordRun (c0 :: rest)).length).head? = some '=') then
      match grabValue ((c0 :: rest).drop ((wordRun (c0 :: rest)).length + 1)) [] with
      | some (v, rest2) => (wordRun (c0 :: rest), v) :: findAllKVAux fuel rest2
      | none => findAllKVAux fuel rest
    else findAllKVAux fuel rest

/-- The full regex scan over the brace content. -/
def findAllKV (cs : List Char) : List (List Char × List Char) :=
  findAllKVAux cs.length cs

/-- The per-match value cleanup of `_parse_athena_struct_format`:
`value.strip().strip(',').strip()`. -/
def cleanMatchVal (l : List Char) : List Char :=
  pyStrip isPyWs (pyStrip (· == ',') (pyStrip isPyWs l))

/-- `_parse_athena_struct_format`: strip the outer braces, run the regex
scan, clean each captured value, build the dict in match order, then
append any of the eight known fields that are still missing with the
empty string. Unrecognized keys found by the regex are retained. -/
def parseAthenaStructFormat (s : String) : List (String × String) :=
  let content := pyStrip isPyWs (((pyStrip isPyWs s.data).drop 1).dropLast)
  if content = [] then []
  else
    let ms := findAllKV content
    let base := ms.foldl
      (fun d kv => dictSet d (String.mk kv.1) (String.mk (cleanMatchVal kv.2))) []
    structFields.foldl
      (fun d f => if (d.lookup f).isSome then d else d ++ [(f, "")]) base

/-- Value assigned to schema position `i`: the `i`-th split value,
unescaped (`'\\,'` then `'\\|'`), or the empty string when the split
produced fewer values. -/
def takenValue (values : List (List Char)) (i : Nat) : String :=
  match values.get? i with
  | some v => String.mk (replace2 '\\' '|' '|' (replace2 '\\' ',' ',' v))
  | none => ""

/-- `_parse_comma_separated_struct`: split on unescaped commas, map the
values positionally onto the fixed schema, unescape `'\\,'` and `'\\|'`
in each taken value, and fill missing trailing positions with `''`. -/
def parseCommaSeparatedStruct (s : String) : List (String × String) :=
  let values := splitEsc s.data []
  structFields.enum.map (fun p => (p.2, takenValue values p.1))

theorem takenValue_some (values : List (List Char)) (i : Nat) (v : List Char)
    (h : values.get? i = some v) :
    takenValue values i = String.mk (replace2 '\\' '|' '|' (replace2 '\\' ',' ',' v)) := by
  unfold takenValue
  rw [h]

theorem takenValue_none (values : List (List Char)) (i : Nat)
    (h : values.get? i = none) : takenValue values i = "" := by
  unfold takenValue
  rw [h]

/-- The cleanup `struct_str.strip().strip(',').strip()` performed by
`_convert_struct_to_dict` before dispatching. -/
def cleanedOf (s : String) : List Char :=
  pyStrip isPyWs (pyStrip (· == ',') (pyStrip isPyWs s.data))

/-- Dispatch test of `_convert_struct_to_dict`: the cleaned input both
starts with `{` and ends with `}`. -/
def braceDispatch (s : String) : Bool :=
  (cleanedOf s).head? == some '{' && (cleanedOf s).getLast? == some '}'

/-- `_convert_struct_to_dict`: degenerate inputs decode to the empty
mapping; otherwise the input is stripped of surrounding whitespace and
commas and dispatched to the brace-form parser when it both starts with
`{` and ends with `}`, else to the legacy comma-separated parser. -/
def convertStructToDict (s : String) : List (String × String) :=
  let cs := s.data
  let t := pyStrip isPyWs cs
  if cs.isEmpty || t = [','] || t = ['{', '}'] || t = [] || t = "null".data then []
  else if braceDispatch s then parseAthenaStructFormat (String.mk (cleanedOf s))
  else parseCommaSeparatedStruct (String.mk (cleanedOf s))

/-! ## ChangeRecord builder / differ (`_generate_change_logs`) -/

/-- One in-memory change record, before persistence: `before` / `after`
hold the raw row snapshots that `json.dumps` serializes. -/
structure Change where
  id : String
  table_name : String
  database_name : String
  operation : String
  row_identifier : String
  before : Row
  after : Row
  updated_by : String
  updated_at : String
  session_id : String
  change_reason : String
  deriving Repr, DecidableEq

/-- Substring test, Python `needle in hay`. -/
def listContainsSub (hay needle : List Char) : Bool :=
  (List.range (hay.length + 1)).any (fun i => needle.isPrefixOf (hay.drop i))

/-- Column-name test of the id heuristic:
`any(keyword in col.lower() for keyword in ['id', 'key', 'pk'])`. -/
def colIsIdLike (name : String) : Bool :=
  let low := name.data.map Char.toLower
  listContainsSub low "id".data || listContainsSub low "key".data || listContainsSub low "pk".data

/-- The id column chosen by `_generate_change_logs`: first id-like column
of the first original row, else its first column, else `None` (also
`None` when there are no original rows). -/
def findIdColumnGen (rows : List Row) : Option String :=
  match rows with
  | [] => none
  | r0 :: _ =>
    match r0.find? (fun p => colIsIdLike p.1) with
    | some p => some p.1
    | none => (r0.head?).map Prod.fst

/-- `normalize_row`: stringify every value, `None` becomes `''`. -/
def normalizeRow (r : Row) : Dict :=
  r.map (fun p => (p.1, match p.2 with | some s => s | none => ""))

/-- Python `dict ==` on normalized rows: same keys with same values. -/
def pyDictEq (a b : Dict) : Bool :=
  a.all (fun p => b.lookup p.1 == a.lookup p.1) && b.all (fun p => a.lookup p.1 == b.lookup p.1)

/-- The `row_identifier` of an emitted record:
`str(edited_row.get(id_column, key))` where `key` is the stringified
position; a present-but-`None` id value stringifies to the text `None`. -/
def rowIdOf (idCol : Option String) (erow : Row) (i : Nat) : String :=
  match idCol with
  | none => toString i
  | some c =>
    match erow.lookup c with
    | some (some s) => s
    | some none => "None"
    | none => toString i

/-- Record constructor used for a differing pair at position `i`
(`change_record = {...}` in `_generate_change_logs`). -/
def mkChange (db tbl : String) (idCol : Option String) (user ts sid : String)
    (md5 : String → String) (i : Nat) (orow erow : Row) : Change :=
  { id := md5 (db ++ "_" ++ tbl ++ "_" ++ rowIdOf idCol erow i ++ "_" ++ ts)
    table_name := tbl
    database_name := db
    operation := "UPDATE"
    row_identifier := rowIdOf idCol erow i
    before := orow
    after := erow
    updated_by := user
    updated_at := ts
    session_id := sid
    change_reason := "Manual edit via Athena interface" }

/-- `_generate_change_logs`: the single `now()` timestamp, the session
token and `hashlib.md5` are passed in as parameters.  Python builds two
dicts keyed by `str(i)` over the (possibly truncated) snapshots and
walks the edited dict; since `str` is injective on positions and both
dicts carry exactly the keys `str(0) .. str(n-1)`, that walk is the
positional sweep modelled here with natural-number keys. -/
def generateChangeLogs (db tbl : String) (original edited : List Row)
    (user ts sid : String) (md5 : String → String) : List Change :=
  let idCol := findIdColumnGen original
  let m := min original.length edited.length
  let o := if original.length ≠ edited.length then original.take m else original
  let e := if original.length ≠ edited.length then edited.take m else edited
  (e.enum).filterMap (fun p =>
    match (o.enum).lookup p.1 with
    | none => none
    | some orow =>
      if pyDictEq (normalizeRow orow) (normalizeRow p.2) then none
      else some (mkChange db tbl idCol user ts sid md5 p.1 orow p.2))

/-! ## ChangeLogStore (`_save_changes_to_s3`, `save_table_changes`) -/

/-- Pipe escaping of the plain (non-struct) fields of a log line. -/
def escPipeField (s : String) : String :=
  String.mk (escOne '|' '\\' s.data)

/-- The header of every written log blob. -/
def logHeader : String :=
  "id|table_name|database_name|operation|row_identifier|before|after|updated_by|updated_at|session_id|change_reason"

/-- One pipe-delimited line of `_save_changes_to_s3`: plain fields are
pipe-escaped, `before` / `after` are converted from their JSON in-memory
form to the struct encoding. -/
def recordToLine (c : Change) : String :=
  String.intercalate "|"
    [escPipeField c.id, escPipeField c.table_name, escPipeField c.database_name,
     escPipeField c.operation, escPipeField c.row_identifier,
     convertJsonToStruct c.before, convertJsonToStruct c.after,
     escPipeField c.updated_by, escPipeField c.updated_at,
     escPipeField c.session_id, escPipeField c.change_reason]

/-- The CSV blob written by one `_save_changes_to_s3` call. -/
def buildCsv (records : List Change) : String :=
  String.intercalate "\n" (logHeader :: records.map recordToLine)

/-- `_save_changes_to_s3`: an empty record list is reported as a failure
result; otherwise the blob is written (S3 success is a parameter) and
the destination path is reported. -/
def saveChangesToS3 (database : String) (records : List Change)
    (s3Ok : Bool) (bucket fname : String) : Bool × String :=
  if records = [] then (false, "Nenhum dado de mudança para salvar")
  else if s3Ok then
    (true, "Log salvo em s3://" ++ bucket ++ "/data-changes-log/" ++ database ++
      "/changes_" ++ fname ++ ".csv")
  else (false, "Erro ao salvar no S3")

/-- `save_table_changes` from the point where the change list exists:
ensure the log table first (its outcome is the `createOk` / `createMsg`
parameters), short-circuit to a success with the no-changes message when
the list is empty, otherwise persist via `saveChangesToS3`. -/
def saveTableChangesFlow (createOk : Bool) (createMsg : String)
    (records : List Change) (database : String) (s3Ok : Bool)
    (bucket fname : String) : Bool × String :=
  if ¬createOk then (false, "Erro ao preparar tabela de log: " ++ createMsg)
  else if records = [] then (true, "Nenhuma alteração detectada")
  else
    let r := saveChangesToS3 database records s3Ok bucket fname
    if r.1 then (true, toString records.length ++ " alteração(ões) registrada(s) no log")
    else (false, "Erro ao salvar log: " ++ r.2)

/-! ## TableReconciler (`_apply_changes_from_log`, `get_table_with_changes`) -/

/-- Id column chosen by `_apply_changes_from_log`; unlike the differ it
indexes the first row's first column without an emptiness guard, so an
empty first row raises (`none` here marks that exception). -/
def findIdColumnApply (rows : List Dict) : Option String :=
  match rows with
  | [] => none
  | r0 :: _ =>
    match r0.find? (fun p => colIsIdLike p.1) with
    | some p => some p.1
    | none => (r0.head?).map Prod.fst

/-- Index key of an original row: `str(row.get(id_column, i))`, the row's
own value in the id column if present, else the stringified position. -/
def keyOf (idCol : String) (i : Nat) (row : Dict) : String :=
  match row.lookup idCol with
  | some v => v
  | none => toString i

/-- `result_dict`: fold the original rows into a dict keyed by `keyOf`;
a later row with a duplicate key overwrites the earlier binding. -/
def buildIndex (idCol : String) (rows : List Dict) : List (String × Dict) :=
  (rows.enum).foldl (fun d p => dictSet d (keyOf idCol p.1 p.2) p.2) []

/-- The `after` cell normalization applied before decoding in the UPDATE
and INSERT branches. -/
def afterStrOf (lr : Dict) : String :=
  let a := dictGetD lr "after" ""
  if a = "" ∨ String.mk (pyStrip isPyWs a.data) = "" then "" else a

/-- One iteration of the log-replay loop of `_apply_changes_from_log`:
skip rows with an empty operation or identifier; `UPDATE` merges into an
existing row only decoded fields whose keys already exist on that row
and whose value is non-empty; `INSERT` adds a missing identifier with a
non-empty decode; `DELETE` removes the identifier; anything else is a
no-op. -/
def applyLogRow (d : List (String × Dict)) (lr : Dict) : List (String × Dict) :=
  if dictGetD lr "operation" "" = "" ∨ dictGetD lr "row_identifier" "" = "" then d
  else if dictGetD lr "operation" "" = "UPDATE" then
    match d.lookup (dictGetD lr "row_identifier" "") with
    | some row =>
      if convertStructToDict (afterStrOf lr) = [] then d
      else dictSet d (dictGetD lr "row_identifier" "")
        (pyUpdate row ((convertStructToDict (afterStrOf lr)).filter
          (fun p => ((row.lookup p.1).isSome && p.2 != ""))))
    | none => d
  else if dictGetD lr "operation" "" = "INSERT" then
    if (d.lookup (dictGetD lr "row_identifier" "")).isNone
        && convertStructToDict (afterStrOf lr) != [] then
      d ++ [(dictGetD lr "row_identifier" "", convertStructToDict (afterStrOf lr))]
    else d
  else if dictGetD lr "operation" "" = "DELETE" then
    if (d.lookup (dictGetD lr "row_identifier" "")).isSome then
      d.filter (fun p => p.1 ≠ dictGetD lr "row_identifier" "")
    else d
  else d

/-- `_apply_changes_from_log`: build the index, replay the log rows in
the order given, return the index values.  `none` models the one
uncaught exception inside the function (an empty first original row
makes the id-column fallback index into an empty list). -/
def applyChangesFromLog (original : List Dict) (log : List Dict) : Option (List Dict) :=
  match original with
  | [] => some ((log.foldl applyLogRow []).map Prod.snd)
  | _ :: _ =>
    match findIdColumnApply original with
    | none => none
    | some idCol => some ((log.foldl applyLogRow (buildIndex idCol original)).map Prod.snd)

/-- The four required log columns checked by `get_table_with_changes`. -/
def requiredColumns : List String :=
  ["operation", "row_identifier", "before", "after"]

/-- Python truthiness of the query-execution handle. -/
def execIdFalsy : Option String → Bool
  | none => true
  | some s => s == ""

/-- `get_table_with_changes` with its collaborators as parameters: the
original snapshot (None marks a hard preview failure), the database's
table list, the log query outcome, and the fetched log rows.  Every
fallback returns the original snapshot; the inner try/except turns the
reconciler's exception into the original snapshot as well. -/
def getTableWithChanges (preview : Option (List Dict)) (tables : List String)
    (execOk : Bool) (execId : Option String) (logData : List Dict) :
    Option (List Dict) :=
  match preview with
  | none => none
  | some original =>
    if ¬ tables.contains "data_changes_log" then some original
    else if ¬ execOk ∨ execIdFalsy execId then some original
    else if logData = [] then some original
    else if ¬ (requiredColumns.all (fun c => ((logData.headI).map Prod.fst).contains c)) then
      some original
    else
      match applyChangesFromLog original logData with
      | some r => some r
      | none => some original

/-! ## Generic facts about the Python-dict model -/

theorem lookup_cons_self {α β : Type} [BEq α] [LawfulBEq α] (k : α) (v : β)
    (rest : List (α × β)) : ((k, v) :: rest).lookup k = some v := by
  simp [List.lookup_cons]

theorem lookup_cons_ne {α β : Type} [BEq α] [LawfulBEq α] (k k' : α) (v : β)
    (rest : List (α × β)) (h : k' ≠ k) : ((k, v) :: rest).lookup k' = rest.lookup k' := by
  simp [List.lookup_cons, beq_false_of_ne h]

theorem lookup_dictSet_self {β : Type} (d : List (String × β)) (k : String) (v : β) :
    (dictSet d k v).lookup k = some v := by
  induction d with
  | nil => simp [dictSet, lookup_cons_self]
  | cons p rest ih =>
    obtain ⟨k1, v1⟩ := p
    by_cases h : k1 = k
    · simp only [dictSet, h, if_pos rfl]
      exact lookup_cons_self k v rest
    · simp only [dictSet, if_neg (by simpa using h)]
      rw [lookup_cons_ne k1 k v1 _ (Ne.symm h)]
      exact ih

theorem lookup_dictSet_ne {β : Type} (d : List (String × β)) (k : String) (v : β)
    (k' : String) (h : k' ≠ k) : (dictSet d k v).lookup k' = d.lookup k' := by
  induction d with
  | nil => simp [dictSet, lookup_cons_ne _ _ _ _ h]
  | cons p rest ih =>
    obtain ⟨k1, v1⟩ := p
    show List.lookup k' (if k1 = k then (k, v) :: rest else (k1, v1) :: dictSet rest k v)
      = List.lookup k' ((k1, v1) :: rest)
    by_cases hp : k1 = k
    · rw [if_pos hp]
      subst hp
      rw [lookup_cons_ne _ _ _ _ h, lookup_cons_ne _ _ _ _ h]
    · rw [if_neg hp]
      by_cases hk' : k' = k1
      · subst hk'
        rw [lookup_cons_self, lookup_cons_self]
      · rw [lookup_cons_ne _ _ _ _ hk', lookup_cons_ne _ _ _ _ hk', ih]

theorem not_mem_keys_of_lookup_eq_none {β : Type} (d : List (String × β)) (k : String)
    (h : d.lookup k = none) : k ∉ d.map Prod.fst := by
  induction d with
  | nil => simp
  | cons p rest ih =>
    obtain ⟨k1, v1⟩ := p
    by_cases hp : k = k1
    · subst hp
      rw [lookup_cons_self] at h
      simp at h
    · rw [lookup_cons_ne _ _ _ _ hp] at h
      simp only [List.map_cons, List.mem_cons]
      push_neg
      exact ⟨hp, ih h⟩

theorem lookup_mem {β : Type} (d : List (String × β)) (k : String) (v : β)
    (h : d.lookup k = some v) : (k, v) ∈ d := by
  induction d with
  | nil => simp at h
  | cons p rest ih =>
    obtain ⟨k1, v1⟩ := p
    by_cases hp : k = k1
    · subst hp
      rw [lookup_cons_self] at h
      obtain rfl : v1 = v := by simpa using h
      simp
    · rw [lookup_cons_ne _ _ _ _ hp] at h
      exact List.mem_cons_of_mem _ (ih h)

theorem keys_dictSet_of_mem {β : Type} (d : List (String × β)) (k : String) (v : β)
    (h : (d.lookup k).isSome) : (dictSet d k v).map Prod.fst = d.map Prod.fst := by
  induction d with
  | nil => simp at h
  | cons p rest ih =>
    obtain ⟨k1, v1⟩ := p
    by_cases hp : k1 = k
    · simp [dictSet, hp]
    · rw [lookup_cons_ne _ _ _ _ (Ne.symm hp)] at h
      simp [dictSet, hp, ih h]

theorem keys_dictSet_of_not_mem {β : Type} (d : List (String × β)) (k : String) (v : β)
    (h : d.lookup k = none) : (dictSet d k v).map Prod.fst = d.map Prod.fst ++ [k] := by
  induction d with
  | nil => simp [dictSet]
  | cons p rest ih =>
    obtain ⟨k1, v1⟩ := p
    by_cases hp : k1 = k
    · subst hp
      rw [lookup_cons_self] at h
      simp at h
    · rw [lookup_cons_ne _ _ _ _ (Ne.symm hp)] at h
      simp [dictSet, hp, ih h]

theorem nodup_keys_dictSet {β : Type} (d : List (String × β)) (k : String) (v : β)
    (h : (d.map Prod.fst).Nodup) : ((dictSet d k v).map Prod.fst).Nodup := by
  cases hl : d.lookup k with
  | some w => rw [keys_dictSet_of_mem d k v (by simp [hl])]; exact h
  | none =>
    rw [keys_dictSet_of_not_mem d k v hl]
    have hk := not_mem_keys_of_lookup_eq_none d k hl
    simp [List.nodup_append, h, hk]

theorem lookup_filter_self {β : Type} (d : List (String × β)) (k : String) :
    (d.filter (fun p => p.1 ≠ k)).lookup k = none := by
  induction d with
  | nil => simp
  | cons p rest ih =>
    obtain ⟨k1, v1⟩ := p
    rw [List.filter_cons]
    by_cases hp : k1 = k
    · rw [if_neg (by simp [hp])]
      exact ih
    · rw [if_pos (by simp [hp])]
      rw [lookup_cons_ne _ _ _ _ (Ne.symm hp)]
      exact ih

theorem lookup_filter_ne {β : Type} (d : List (String × β)) (k k' : String) (h : k' ≠ k) :
    (d.filter (fun p => p.1 ≠ k)).lookup k' = d.lookup k' := by
  induction d with
  | nil => simp
  | cons p rest ih =>
    obtain ⟨k1, v1⟩ := p
    rw [List.filter_cons]
    by_cases hp : k1 = k
    · subst hp
      rw [if_neg (by simp)]
      rw [lookup_cons_ne _ _ _ _ h]
      exact ih
    · rw [if_pos (by simp [hp])]
      by_cases hk' : k' = k1
      · subst hk'
        rw [lookup_cons_self, lookup_cons_self]
      · rw [lookup_cons_ne _ _ _ _ hk', lookup_cons_ne _ _ _ _ hk', ih]

theorem lookup_append_single_ne {β : Type} (d : List (String × β)) (k k' : String) (v : β)
    (h : k' ≠ k) : (d ++ [(k, v)]).lookup k' = d.lookup k' := by
  induction d with
  | nil => simpa using lookup_cons_ne k k' v [] h
  | cons p rest ih =>
    obtain ⟨k1, v1⟩ := p
    by_cases hp : k' = k1
    · subst hp
      simp only [List.cons_append]
      rw [lookup_cons_self, lookup_cons_self]
    · simp only [List.cons_append]
      rw [lookup_cons_ne _ _ _ _ hp, lookup_cons_ne _ _ _ _ hp, ih]

theorem pyUpdate_lookup_of_none {β : Type} (row kvs : List (String × β))
    (c : String) (h : ∀ p ∈ kvs, p.1 ≠ c) : (pyUpdate row kvs).lookup c = row.lookup c := by
  induction kvs generalizing row with
  | nil => simp [pyUpdate]
  | cons p rest ih =>
    have hp : p.1 ≠ c := h p (by simp)
    have hstep : pyUpdate row (p :: rest) = pyUpdate (dictSet row p.1 p.2) rest := by
      simp [pyUpdate]
    rw [hstep, ih _ (fun q hq => h q (by simp [hq]))]
    exact lookup_dictSet_ne row p.1 p.2 c (Ne.symm hp)

/-! ## C3: an empty change list is reported as success -/

/-- C3: once the log table has been ensured, saving an empty list of
change records short-circuits to a success result carrying the
no-changes message rather than an error. -/
theorem append_empty_no_changes (createMsg database : String) (s3Ok : Bool)
    (bucket fname : String) :
    saveTableChangesFlow true createMsg [] database s3Ok bucket fname
      = (true, "Nenhuma alteração detectada") := by
  simp [saveTableChangesFlow]

/-! ## C5: reconciliation entry-point fallbacks -/

/-- C5: each failed precondition of `get_table_with_changes` (log table
absent, failed query or falsy execution handle, empty log result, first
log row missing a required column) independently short-circuits to the
original snapshot; the embedding is total, so no exception escapes. -/
theorem reconcile_fallbacks (original : List Dict) (tables : List String)
    (execOk : Bool) (execId : Option String) (logData : List Dict) :
    (¬ tables.contains "data_changes_log" →
      getTableWithChanges (some original) tables execOk execId logData = some original)
    ∧ ((¬ execOk ∨ execIdFalsy execId = true) →
      getTableWithChanges (some original) tables execOk execId logData = some original)
    ∧ (logData = [] →
      getTableWithChanges (some original) tables execOk execId logData = some original)
    ∧ (∀ row0 rest, logData = row0 :: rest →
      (∃ c ∈ requiredColumns, c ∉ row0.map Prod.fst) →
      getTableWithChanges (some original) tables execOk execId logData = some original) := by
  refine ⟨fun h => ?_, fun h => ?_, fun h => ?_, fun row0 rest hlog hc => ?_⟩ <;>
    simp only [getTableWithChanges]
  · rw [if_pos (by simpa using h)]
  · by_cases h1 : "data_changes_log" ∈ tables
    · rw [if_neg (by simp [h1]), if_pos h]
    · rw [if_pos (by simp [h1])]
  · by_cases h1 : "data_changes_log" ∈ tables
    · by_cases h2 : ¬ execOk = true ∨ execIdFalsy execId = true
      · rw [if_neg (by simp [h1]), if_pos h2]
      · rw [if_neg (by simp [h1]), if_neg h2, if_pos h]
    · rw [if_pos (by simp [h1])]
  · by_cases h1 : "data_changes_log" ∈ tables
    · by_cases h2 : ¬ execOk = true ∨ execIdFalsy execId = true
      · rw [if_neg (by simp [h1]), if_pos h2]
      · obtain ⟨c, hcr, hcm⟩ := hc
        rw [if_neg (by simp [h1]), if_neg h2, if_neg (by simp [hlog]),
          if_pos ?_]
        simp only [hlog, List.headI, List.all_eq_true, not_forall]
        exact ⟨c, hcr, by simpa using hcm⟩
    · rw [if_pos (by simp [h1])]

/-! ## Keys of decoded structs -/

theorem keys_parseCommaSeparatedStruct (s : String) :
    (parseCommaSeparatedStruct s).map Prod.fst = structFields := by
  simp only [parseCommaSeparatedStruct, List.map_map]
  exact List.enum_map_snd structFields

theorem foldl_dictSet_keys_nodup {γ β : Type} (f : γ → String) (g : γ → β) :
    ∀ (l : List γ) (d : List (String × β)), (d.map Prod.fst).Nodup →
      ((l.foldl (fun d x => dictSet d (f x) (g x)) d).map Prod.fst).Nodup := by
  intro l
  induction l with
  | nil => intro d h; simpa using h
  | cons x rest ih =>
    intro d h
    simpa using ih (dictSet d (f x) (g x)) (nodup_keys_dictSet d (f x) (g x) h)

theorem foldl_fill_keys_nodup :
    ∀ (fs : List String) (d : List (String × String)), (d.map Prod.fst).Nodup →
      ((fs.foldl (fun d f => if (d.lookup f).isSome then d else d ++ [(f, "")]) d).map Prod.fst).Nodup := by
  intro fs
  induction fs with
  | nil => intro d h; simpa using h
  | cons f rest ih =>
    intro d h
    simp only [List.foldl_cons]
    by_cases hf : (d.lookup f).isSome
    · rw [if_pos hf]
      exact ih d h
    · rw [if_neg hf]
      apply ih
      have hnotmem := not_mem_keys_of_lookup_eq_none d f (by
        cases hd : d.lookup f
        · rfl
        · simp [hd] at hf)
      simp [List.nodup_append, h, hnotmem]

theorem keys_parseAthenaStructFormat_nodup (s : String) :
    ((parseAthenaStructFormat s).map Prod.fst).Nodup := by
  simp only [parseAthenaStructFormat]
  split
  · simp
  · apply foldl_fill_keys_nodup
    apply foldl_dictSet_keys_nodup
    simp

theorem convertStructToDict_keys_nodup (s : String) :
    ((convertStructToDict s).map Prod.fst).Nodup := by
  simp only [convertStructToDict]
  split
  · simp
  · split
    · exact keys_parseAthenaStructFormat_nodup _
    · rw [keys_parseCommaSeparatedStruct]
      decide

theorem lookup_of_nodup_mem {β : Type} :
    ∀ (d : List (String × β)), (d.map Prod.fst).Nodup →
      ∀ p ∈ d, d.lookup p.1 = some p.2 := by
  intro d
  induction d with
  | nil => intro _ p hp; simp at hp
  | cons q rest ih =>
    intro hnd p hp
    obtain ⟨q1, v1⟩ := q
    rw [List.map_cons, List.nodup_cons] at hnd
    rcases List.mem_cons.mp hp with heq | hmem
    · subst heq
      exact lookup_cons_self _ _ _
    · have hne : p.1 ≠ q1 := by
        intro he
        have hmm : p.1 ∈ rest.map Prod.fst := List.mem_map_of_mem Prod.fst hmem
        rw [he] at hmm
        exact hnd.1 hmm
      rw [lookup_cons_ne _ _ _ _ hne]
      exact ih hnd.2 p hmem

/-! ## Single-step facts about the reconciler's replay loop -/

theorem applyLogRow_keys_nodup (d : List (String × Dict)) (lr : Dict)
    (h : (d.map Prod.fst).Nodup) : ((applyLogRow d lr).map Prod.fst).Nodup := by
  unfold applyLogRow
  split
  · exact h
  · split
    · split
      · split
        · exact h
        · exact nodup_keys_dictSet _ _ _ h
      · exact h
    · split
      · split
        · rename_i hguard
          have hnone : d.lookup (dictGetD lr "row_identifier" "") = none := by
            cases hd : d.lookup (dictGetD lr "row_identifier" "")
            · rfl
            · simp [hd] at hguard
          rw [List.map_append]
          have hnotmem := not_mem_keys_of_lookup_eq_none d _ hnone
          simp [List.nodup_append, h, hnotmem]
        · exact h
      · split
        · split
          · have hsub : ((d.filter (fun p => p.1 ≠ dictGetD lr "row_identifier" "")).map Prod.fst).Sublist
                (d.map Prod.fst) := (List.filter_sublist d).map Prod.fst
            exact h.sublist hsub
          · exact h
        · exact h

theorem applyLogRow_lookup_ne (d : List (String × Dict)) (lr : Dict) (k : String)
    (h : dictGetD lr "row_identifier" "" ≠ k) :
    (applyLogRow d lr).lookup k = d.lookup k := by
  unfold applyLogRow
  split
  · rfl
  · split
    · split
      · split
        · rfl
        · exact lookup_dictSet_ne d _ _ k (Ne.symm h)
      · rfl
    · split
      · split
        · exact lookup_append_single_ne d _ k _ (Ne.symm h)
        · rfl
      · split
        · split
          · exact lookup_filter_ne d _ k (Ne.symm h)
          · rfl
        · rfl

theorem applyLogRow_lookup_none (d : List (String × Dict)) (lr : Dict) (k : String)
    (hnone : d.lookup k = none)
    (hni : dictGetD lr "row_identifier" "" = k → dictGetD lr "operation" "" ≠ "INSERT") :
    (applyLogRow d lr).lookup k = none := by
  by_cases hrid : dictGetD lr "row_identifier" "" = k
  · unfold applyLogRow
    rw [hrid]
    by_cases h1 : dictGetD lr "operation" "" = "" ∨ k = ""
    · rw [if_pos h1]
      exact hnone
    · rw [if_neg h1]
      by_cases h2 : dictGetD lr "operation" "" = "UPDATE"
      · rw [if_pos h2, hnone]
        exact hnone
      · rw [if_neg h2]
        by_cases h3 : dictGetD lr "operation" "" = "INSERT"
        · exact absurd h3 (hni hrid)
        · rw [if_neg h3]
          by_cases h4 : dictGetD lr "operation" "" = "DELETE"
          · rw [if_pos h4, hnone]
            rw [if_neg (by simp)]
            exact hnone
          · rw [if_neg h4]
            exact hnone
  · rw [applyLogRow_lookup_ne d lr k hrid]
    exact hnone

theorem foldl_applyLogRow_keys_nodup (log : List Dict) :
    ∀ (d : List (String × Dict)), (d.map Prod.fst).Nodup →
      ((log.foldl applyLogRow d).map Prod.fst).Nodup := by
  induction log with
  | nil => intro d h; simpa using h
  | cons e rest ih =>
    intro d h
    simpa using ih (applyLogRow d e) (applyLogRow_keys_nodup d e h)

theorem foldl_applyLogRow_none (k : String) (log : List Dict) :
    ∀ (d : List (String × Dict)), d.lookup k = none →
      (∀ e ∈ log, dictGetD e "row_identifier" "" = k → dictGetD e "operation" "" ≠ "INSERT") →
      ((log.foldl applyLogRow d).lookup k) = none := by
  induction log with
  | nil => intro d h _; simpa using h
  | cons e rest ih =>
    intro d h hni
    simp only [List.foldl_cons]
    exact ih (applyLogRow d e)
      (applyLogRow_lookup_none d e k h (hni e (by simp)))
      (fun e' he' => hni e' (by simp [he']))

theorem foldl_applyLogRow_untouched (k : String) (log : List Dict) :
    ∀ (d : List (String × Dict)),
      (∀ e ∈ log, dictGetD e "row_identifier" "" ≠ k) →
      ((log.foldl applyLogRow d).lookup k) = d.lookup k := by
  induction log with
  | nil => intro d _; rfl
  | cons e rest ih =>
    intro d h
    simp only [List.foldl_cons]
    rw [ih (applyLogRow d e) (fun e' he' => h e' (by simp [he']))]
    exact applyLogRow_lookup_ne d e k (h e (by simp))

/-! ## C2: UPDATE partial-merge semantics -/

/-- C2: a matching UPDATE log row merges into the indexed row exactly
the decoded after-fields whose keys already exist on that row and whose
decoded value is non-empty; an empty-string after-value leaves the
column unchanged, an unmentioned column keeps its original value, and no
new column is ever added. -/
theorem update_merge_semantics (idx : List (String × Dict)) (lr : Dict)
    (rid : String) (row av : Dict)
    (hop : dictGetD lr "operation" "" = "UPDATE")
    (hrid : dictGetD lr "row_identifier" "" = rid)
    (hne : rid ≠ "")
    (hrow : idx.lookup rid = some row)
    (hav : convertStructToDict (afterStrOf lr) = av) :
    ((applyLogRow idx lr).lookup rid
        = some (pyUpdate row (av.filter (fun p => (row.lookup p.1).isSome && p.2 != ""))))
    ∧ (∀ c, av.lookup c = some "" →
        (pyUpdate row (av.filter (fun p => (row.lookup p.1).isSome && p.2 != ""))).lookup c
          = row.lookup c)
    ∧ (∀ c, av.lookup c = none →
        (pyUpdate row (av.filter (fun p => (row.lookup p.1).isSome && p.2 != ""))).lookup c
          = row.lookup c)
    ∧ (∀ c, row.lookup c = none →
        (pyUpdate row (av.filter (fun p => (row.lookup p.1).isSome && p.2 != ""))).lookup c
          = none) := by
  have hnd : (av.map Prod.fst).Nodup := hav ▸ convertStructToDict_keys_nodup _
  refine ⟨?_, ?_, ?_, ?_⟩
  · unfold applyLogRow
    rw [hrid]
    rw [if_neg (by simp [hop, hne])]
    rw [if_pos hop]
    split
    · rename_i row' hrow'
      rw [hrow] at hrow'
      obtain rfl : row = row' := by injection hrow'
      rw [hav]
      by_cases hav0 : av = []
      · rw [if_pos hav0]
        subst hav0
        simpa [pyUpdate] using hrow
      · rw [if_neg hav0]
        exact lookup_dictSet_self idx rid _
    · rename_i hrow'
      rw [hrow] at hrow'
      cases hrow'
  · intro c hc
    apply pyUpdate_lookup_of_none
    intro p hp hpc
    have hmem := (List.mem_filter.mp hp)
    have hl := lookup_of_nodup_mem av hnd p hmem.1
    rw [hpc, hc] at hl
    have hp2 := Option.some.inj hl
    have hb := hmem.2
    rw [← hp2] at hb
    simp at hb
  · intro c hc
    apply pyUpdate_lookup_of_none
    intro p hp hpc
    have hmem := (List.mem_filter.mp hp)
    have hl := lookup_of_nodup_mem av hnd p hmem.1
    rw [hpc, hc] at hl
    cases hl
  · intro c hc
    rw [pyUpdate_lookup_of_none]
    · exact hc
    · intro p hp hpc
      have hmem := (List.mem_filter.mp hp)
      have hb := hmem.2
      rw [hpc, hc] at hb
      simp at hb

/-! ## C6: DELETE removes the row -/

/-- C6: replaying any log of the shape `pre ++ [DELETE k] ++ post`, where
no later entry INSERTs `k` back, leaves no binding for `k` in the final
index, regardless of the UPDATE entries for `k` occurring earlier in the
replay order. -/
theorem delete_removes_row (idx : List (String × Dict)) (pre post : List Dict)
    (del : Dict) (k : String)
    (hop : dictGetD del "operation" "" = "DELETE")
    (hrid : dictGetD del "row_identifier" "" = k)
    (hk : k ≠ "")
    (hpost : ∀ e ∈ post, dictGetD e "row_identifier" "" = k →
      dictGetD e "operation" "" ≠ "INSERT") :
    (((pre ++ del :: post).foldl applyLogRow idx).lookup k) = none := by
  rw [List.foldl_append, List.foldl_cons]
  apply foldl_applyLogRow_none k post _ ?_ hpost
  generalize List.foldl applyLogRow idx pre = d0
  unfold applyLogRow
  rw [hrid]
  rw [if_neg (by simp [hop, hk])]
  rw [if_neg (by simp [hop])]
  rw [if_neg (by simp [hop])]
  rw [if_pos hop]
  split
  · exact lookup_filter_self _ k
  · rename_i hnotsome
    exact Option.not_isSome_iff_eq_none.mp (by simpa using hnotsome)

/-! ## C10: duplicate identifiers collapse to the last original row -/

theorem foldl_dictSet_lookup {γ β : Type} (f : γ → String) (g : γ → β) (k : String) :
    ∀ (l : List γ) (d : List (String × β)),
      ((l.foldl (fun d x => dictSet d (f x) (g x)) d).lookup k)
        = (((l.filter (fun x => f x = k)).getLast?.map g).or (d.lookup k)) := by
  intro l
  induction l using List.reverseRecOn with
  | nil => intro d; simp
  | append_singleton l x ih =>
    intro d
    rw [List.foldl_append, List.foldl_cons, List.foldl_nil, List.filter_append]
    by_cases hx : f x = k
    · rw [hx, lookup_dictSet_self]
      rw [List.filter_cons, if_pos (by simp [hx]), List.filter_nil]
      rw [List.getLast?_append]
      simp
    · rw [lookup_dictSet_ne _ _ _ _ (Ne.symm hx)]
      rw [List.filter_cons, if_neg (by simp [hx]), List.filter_nil, List.append_nil]
      exact ih d

theorem buildIndex_lookup (idCol : String) (rows : List Dict) (k : String) :
    (buildIndex idCol rows).lookup k
      = ((rows.enum.filter (fun p => keyOf idCol p.1 p.2 = k)).getLast?.map Prod.snd) := by
  unfold buildIndex
  have h := foldl_dictSet_lookup (fun p => keyOf idCol p.1 p.2) Prod.snd k rows.enum []
  simp only [List.lookup_nil, Option.or_none] at h
  exact h

/-- C10: with an id column found, the reconciler indexes the original
rows by identifier, so the replayed output carries at most one row per
identifier (the index keys stay duplicate-free under any log), and an
identifier shared by several original rows is bound to the last such row
in original order; if no log entry targets that identifier the binding
survives the whole replay, which means the earlier duplicates are
dropped from the output. -/
theorem duplicate_identifier_index (original log : List Dict) (idCol : String) (k : String)
    (h0 : original ≠ [])
    (hcol : findIdColumnApply original = some idCol)
    (hdup : 2 ≤ original.enum.countP (fun p => keyOf idCol p.1 p.2 = k)) :
    (applyChangesFromLog original log
        = some ((log.foldl applyLogRow (buildIndex idCol original)).map Prod.snd))
    ∧ (((log.foldl applyLogRow (buildIndex idCol original)).map Prod.fst).Nodup)
    ∧ ((∀ e ∈ log, dictGetD e "row_identifier" "" ≠ k) →
        (log.foldl applyLogRow (buildIndex idCol original)).lookup k
          = ((original.enum.filter (fun p => keyOf idCol p.1 p.2 = k)).getLast?.map Prod.snd)) := by
  refine ⟨?_, ?_, ?_⟩
  · cases original with
    | nil => exact absurd rfl h0
    | cons r t =>
      unfold applyChangesFromLog
      rw [hcol]
  · apply foldl_applyLogRow_keys_nodup
    exact foldl_dictSet_keys_nodup (fun p => keyOf idCol p.1 p.2) Prod.snd
      original.enum [] (by simp)
  · intro huntouched
    rw [foldl_applyLogRow_untouched k log _ huntouched]
    exact buildIndex_lookup idCol original k

/-! ## Differ: positional sweep facts -/

theorem filterMap_congr_mem {α β : Type} {f g : α → Option β} :
    ∀ l : List α, (∀ a ∈ l, f a = g a) → l.filterMap f = l.filterMap g := by
  intro l
  induction l with
  | nil => intro _; rfl
  | cons a rest ih =>
    intro h
    rw [List.filterMap_cons, List.filterMap_cons, h a (by simp),
      ih (fun a ha => h a (by simp [ha]))]

theorem filterMap_enum_lookup {γ : Type} (F : Nat → Row → Row → Option γ) :
    ∀ (n : Nat) (o e : List Row), o.length = e.length →
      ((List.enumFrom n e).filterMap (fun p =>
          match (List.enumFrom n o).lookup p.1 with
          | none => none
          | some orow => F p.1 orow p.2))
        = ((List.enumFrom n (o.zip e)).filterMap (fun p => F p.1 p.2.1 p.2.2)) := by
  intro n o
  induction o generalizing n with
  | nil =>
    intro e h
    have he : e = [] := List.length_eq_zero.mp h.symm
    subst he
    rfl
  | cons orow o' ih =>
    intro e h
    cases e with
    | nil => simp at h
    | cons erow e' =>
      show ((n, erow) :: List.enumFrom (n + 1) e').filterMap _
        = ((n, (orow, erow)) :: List.enumFrom (n + 1) (o'.zip e')).filterMap _
      rw [List.filterMap_cons, List.filterMap_cons]
      have hlk : List.lookup (n, erow).1 (List.enumFrom n (orow :: o'))
          = some orow := by
        show List.lookup n ((n, orow) :: List.enumFrom (n + 1) o') = some orow
        exact lookup_cons_self n orow _
      rw [hlk]
      have htail : (List.enumFrom (n + 1) e').filterMap (fun p =>
            match (List.enumFrom n (orow :: o')).lookup p.1 with
            | none => none
            | some orow => F p.1 orow p.2)
          = (List.enumFrom (n + 1) e').filterMap (fun p =>
            match (List.enumFrom (n + 1) o').lookup p.1 with
            | none => none
            | some orow => F p.1 orow p.2) := by
        apply filterMap_congr_mem
        intro p hp
        have h1 : n + 1 ≤ p.1 := (List.mem_enumFrom hp).1
        have hne : p.1 ≠ n := by omega
        show (match List.lookup p.1 ((n, orow) :: List.enumFrom (n + 1) o') with
            | none => none
            | some orow => F p.1 orow p.2) = _
        rw [lookup_cons_ne _ _ _ _ hne]
      rw [htail, ih (n + 1) e' (by simpa using h)]

/-- A record emitted at position `i` for the differing pair. -/
def diffEmit (db tbl : String) (idCol : Option String) (user ts sid : String)
    (md5 : String → String) (p : Nat × (Row × Row)) : Option Change :=
  if pyDictEq (normalizeRow p.2.1) (normalizeRow p.2.2) then none
  else some (mkChange db tbl idCol user ts sid md5 p.1 p.2.1 p.2.2)

theorem generateChangeLogs_eq_of_length_eq (db tbl user ts sid : String)
    (md5 : String → String) (o e : List Row) (h : o.length = e.length) :
    generateChangeLogs db tbl o e user ts sid md5
      = ((o.zip e).enum).filterMap (diffEmit db tbl (findIdColumnGen o) user ts sid md5) := by
  have hcond : ¬(o.length ≠ e.length) := by simp [h]
  simp only [generateChangeLogs, if_neg hcond]
  rw [List.enum_eq_enumFrom, List.enum_eq_enumFrom]
  exact filterMap_enum_lookup
    (fun i orow erow =>
      if pyDictEq (normalizeRow orow) (normalizeRow erow) then none
      else some (mkChange db tbl (findIdColumnGen o) user ts sid md5 i orow erow))
    0 o e h

theorem generateChangeLogs_eq_of_length_ne (db tbl user ts sid : String)
    (md5 : String → String) (o e : List Row) (h : o.length ≠ e.length) :
    generateChangeLogs db tbl o e user ts sid md5
      = (((o.take (min o.length e.length)).zip (e.take (min o.length e.length))).enum).filterMap
          (diffEmit db tbl (findIdColumnGen o) user ts sid md5) := by
  simp only [generateChangeLogs, if_pos h]
  rw [List.enum_eq_enumFrom, List.enum_eq_enumFrom]
  exact filterMap_enum_lookup
    (fun i orow erow =>
      if pyDictEq (normalizeRow orow) (normalizeRow erow) then none
      else some (mkChange db tbl (findIdColumnGen o) user ts sid md5 i orow erow))
    0 _ _ (by simp [List.length_take])

theorem pyDictEq_refl (a : Dict) : pyDictEq a a = true := by
  simp [pyDictEq]

theorem length_filterMap_ite {α γ : Type} (q : α → Bool) (g : α → γ) :
    ∀ l : List α,
      (l.filterMap (fun a => if q a then none else some (g a))).length
        = l.countP (fun a => !q a) := by
  intro l
  induction l with
  | nil => rfl
  | cons a rest ih =>
    rw [List.filterMap_cons, List.countP_cons]
    by_cases hq : q a
    · simp [hq, ih]
    · simp [hq, ih]

theorem countP_enumFrom {α : Type} (f : α → Bool) :
    ∀ (l : List α) (n : Nat), (List.enumFrom n l).countP (fun p => f p.2) = l.countP f := by
  intro l
  induction l with
  | nil => intro n; rfl
  | cons a rest ih =>
    intro n
    show List.countP _ ((n, a) :: List.enumFrom (n + 1) rest) = _
    rw [List.countP_cons, List.countP_cons, ih (n + 1)]

theorem zip_self_mem {α : Type} : ∀ (l : List α) (p : α × α), p ∈ l.zip l → p.1 = p.2 := by
  intro l
  induction l with
  | nil => intro p hp; simp at hp
  | cons a t ih =>
    intro p hp
    rw [List.zip_cons_cons] at hp
    rcases List.mem_cons.mp hp with h | h
    · rw [h]
    · exact ih p h

theorem snd_mem_of_mem_enumFrom {α : Type} :
    ∀ (l : List α) (n : Nat) (p : Nat × α), p ∈ List.enumFrom n l → p.2 ∈ l := by
  intro l
  induction l with
  | nil => intro n p hp; simp at hp
  | cons a t ih =>
    intro n p hp
    have hp' : p ∈ (n, a) :: List.enumFrom (n + 1) t := hp
    rcases List.mem_cons.mp hp' with h | h
    · rw [h]
      exact List.mem_cons_self a t
    · exact List.mem_cons_of_mem a (ih (n + 1) p h)

/-! ## C4: the differ emits exactly the differing positions -/

/-- C4: on equal-length snapshots the differ's output is exactly one
record per position whose normalized rows differ (the filterMap
equation), every emitted record carries operation `UPDATE`, the number
of records equals the number of differing positions, and identical
snapshots produce no records. -/
theorem differ_emits_iff (db tbl user ts sid : String) (md5 : String → String)
    (o e : List Row) (h : o.length = e.length) :
    (generateChangeLogs db tbl o e user ts sid md5
        = ((o.zip e).enum).filterMap (diffEmit db tbl (findIdColumnGen o) user ts sid md5))
    ∧ (∀ c ∈ generateChangeLogs db tbl o e user ts sid md5, c.operation = "UPDATE")
    ∧ ((generateChangeLogs db tbl o e user ts sid md5).length
        = (o.zip e).countP (fun p => !(pyDictEq (normalizeRow p.1) (normalizeRow p.2))))
    ∧ (o = e → generateChangeLogs db tbl o e user ts sid md5 = []) := by
  have hmain := generateChangeLogs_eq_of_length_eq db tbl user ts sid md5 o e h
  refine ⟨hmain, ?_, ?_, ?_⟩
  · intro c hc
    rw [hmain] at hc
    obtain ⟨p, hp, hsome⟩ := List.mem_filterMap.mp hc
    unfold diffEmit at hsome
    by_cases hq : pyDictEq (normalizeRow p.2.1) (normalizeRow p.2.2)
    · rw [if_pos hq] at hsome
      cases hsome
    · rw [if_neg hq] at hsome
      obtain rfl := Option.some.inj hsome
      rfl
  · rw [hmain]
    have hlen2 := length_filterMap_ite
      (fun (p : Nat × (Row × Row)) => pyDictEq (normalizeRow p.2.1) (normalizeRow p.2.2))
      (fun p => mkChange db tbl (findIdColumnGen o) user ts sid md5 p.1 p.2.1 p.2.2)
      ((o.zip e).enum)
    rw [List.enum_eq_enumFrom] at hlen2
    rw [List.enum_eq_enumFrom]
    exact hlen2.trans (countP_enumFrom
      (fun p => !(pyDictEq (normalizeRow p.1) (normalizeRow p.2))) (o.zip e) 0)
  · intro heq
    subst heq
    rw [hmain]
    apply List.filterMap_eq_nil_iff.mpr
    intro p hp
    have hp2 : p.2 ∈ o.zip o := by
      rw [List.enum_eq_enumFrom] at hp
      exact snd_mem_of_mem_enumFrom _ 0 p hp
    have hpair := zip_self_mem o p.2 hp2
    unfold diffEmit
    rw [if_pos (by rw [hpair]; exact pyDictEq_refl _)]

/-! ## C7: length mismatch truncates, never raises -/

theorem findIdColumnGen_take (o : List Row) (m : Nat) (hm : 1 ≤ m) :
    findIdColumnGen (o.take m) = findIdColumnGen o := by
  cases o with
  | nil => simp
  | cons r t =>
    obtain ⟨m', rfl⟩ := Nat.exists_eq_add_of_le hm
    rw [Nat.add_comm 1 m', List.take_succ_cons]
    rfl

/-- C7: on snapshots of different lengths the differ behaves exactly as
on both snapshots truncated to the shorter length, and emits at most
that many records; the embedding is a total function, so no exception
is raised. -/
theorem differ_truncation (db tbl user ts sid : String) (md5 : String → String)
    (o e : List Row) (h : o.length ≠ e.length) :
    (generateChangeLogs db tbl o e user ts sid md5
        = generateChangeLogs db tbl (o.take (min o.length e.length))
            (e.take (min o.length e.length)) user ts sid md5)
    ∧ (generateChangeLogs db tbl o e user ts sid md5).length ≤ min o.length e.length := by
  have hlen : (o.take (min o.length e.length)).length = (e.take (min o.length e.length)).length := by
    simp [List.length_take]
  have hmain := generateChangeLogs_eq_of_length_ne db tbl user ts sid md5 o e h
  have hrhs := generateChangeLogs_eq_of_length_eq db tbl user ts sid md5
    (o.take (min o.length e.length)) (e.take (min o.length e.length)) hlen
  constructor
  · rw [hmain, hrhs]
    rcases Nat.eq_zero_or_pos (min o.length e.length) with hm | hm
    · rw [hm]
      rfl
    · rw [findIdColumnGen_take o _ hm]
  · rw [hmain]
    calc (((o.take (min o.length e.length)).zip (e.take (min o.length e.length))).enum.filterMap
        (diffEmit db tbl (findIdColumnGen o) user ts sid md5)).length
        ≤ (((o.take (min o.length e.length)).zip (e.take (min o.length e.length))).enum).length :=
          List.length_filterMap_le _ _
      _ ≤ min o.length e.length := by
          simp [List.enum_length, List.length_zip, List.length_take]

/-! ## Escaping and the comma scan -/

/-- Characters that keep both codec directions inert: no delimiter, no
escape, no brace, no `=`, no whitespace. -/
def goodChar (c : Char) : Bool :=
  !(c == ',') && !(c == '|') && !(c == '=') && !(c == '\\') &&
    !(c == '{') && !(c == '}') && !(isPyWs c)

theorem escOne_eq_self (needle esc : Char) :
    ∀ l : List Char, (∀ c ∈ l, c ≠ needle) → escOne needle esc l = l := by
  intro l
  induction l with
  | nil => intro _; rfl
  | cons c rest ih =>
    intro h
    have hc : c ≠ needle := h c (by simp)
    simp only [escOne, List.flatMap_cons] at *
    rw [if_neg hc]
    simp only [List.singleton_append, List.cons.injEq, true_and]
    exact ih (fun c' hc' => h c' (by simp [hc']))

theorem escapeStructVal_eq_self (l : List Char)
    (h : ∀ c ∈ l, c ≠ ',' ∧ c ≠ '|') : escapeStructVal l = l := by
  unfold escapeStructVal
  rw [escOne_eq_self ',' '\\' l (fun c hc => (h c hc).1)]
  rw [escOne_eq_self '|' '\\' l (fun c hc => (h c hc).2)]

theorem escOne_append (needle esc : Char) (a b : List Char) :
    escOne needle esc (a ++ b) = escOne needle esc a ++ escOne needle esc b := by
  simp [escOne]

theorem escapeStructVal_cons (c : Char) (v : List Char) :
    escapeStructVal (c :: v)
      = (if c = ',' then ['\\', ','] else if c = '|' then ['\\', '|'] else [c])
        ++ escapeStructVal v := by
  unfold escapeStructVal
  have h1 : escOne ',' '\\' (c :: v)
      = (if c = ',' then ['\\', ','] else [c]) ++ escOne ',' '\\' v := by
    by_cases hc : c = ','
    · subst hc
      simp [escOne]
    · simp [escOne, hc]
  rw [h1, escOne_append]
  by_cases hc : c = ','
  · subst hc
    rw [if_pos rfl, if_pos rfl]
    rfl
  · rw [if_neg hc, if_neg hc]
    by_cases hp : c = '|'
    · subst hp
      rfl
    · rw [if_neg hp]
      have : escOne '|' '\\' [c] = [c] := by simp [escOne, hp]
      rw [this]

theorem splitEsc_nil (cur : List Char) :
    splitEsc [] cur = if cur = [] then [] else [cur] := rfl

theorem splitEsc_esc (c : Char) (rest cur : List Char) :
    splitEsc ('\\' :: c :: rest) cur = splitEsc rest (cur ++ [c]) := rfl

theorem splitEsc_cons (c : Char) (rest cur : List Char) :
    splitEsc (c :: rest) cur =
      if c = '\\' then
        (match rest with
         | [] => if cur = [] then [] else [cur]
         | c2 :: rest2 => splitEsc rest2 (cur ++ [c2]))
      else if c = ',' then cur :: splitEsc rest []
      else splitEsc rest (cur ++ [c]) := by
  rw [splitEsc.eq_def]

theorem splitEsc_comma (rest cur : List Char) :
    splitEsc (',' :: rest) cur = cur :: splitEsc rest [] := by
  rw [splitEsc_cons, if_neg (by decide), if_pos rfl]

theorem splitEsc_plain (c : Char) (rest cur : List Char)
    (h1 : c ≠ '\\') (h2 : c ≠ ',') :
    splitEsc (c :: rest) cur = splitEsc rest (cur ++ [c]) := by
  rw [splitEsc_cons, if_neg h1, if_neg h2]

theorem splitEsc_clean_comma :
    ∀ (v : List Char), (∀ c ∈ v, c ≠ ',' ∧ c ≠ '\\') →
      ∀ (cur rest : List Char),
        splitEsc (v ++ ',' :: rest) cur = (cur ++ v) :: splitEsc rest [] := by
  intro v
  induction v with
  | nil =>
    intro _ cur rest
    simpa using splitEsc_comma rest cur
  | cons c v' ih =>
    intro h cur rest
    have hc := h c (by simp)
    rw [List.cons_append, splitEsc_plain c _ cur hc.2 hc.1]
    rw [ih (fun c' hc' => h c' (by simp [hc'])) (cur ++ [c]) rest]
    simp

theorem splitEsc_clean_end :
    ∀ (v : List Char), (∀ c ∈ v, c ≠ ',' ∧ c ≠ '\\') →
      ∀ (cur : List Char), splitEsc v cur = if cur ++ v = [] then [] else [cur ++ v] := by
  intro v
  induction v with
  | nil => intro _ cur; simp [splitEsc_nil]
  | cons c v' ih =>
    intro h cur
    have hc := h c (by simp)
    rw [splitEsc_plain c _ cur hc.2 hc.1]
    rw [ih (fun c' hc' => h c' (by simp [hc'])) (cur ++ [c])]
    simp

theorem splitEsc_escaped_comma :
    ∀ (v : List Char), '\\' ∉ v →
      ∀ (cur rest : List Char),
        splitEsc (escapeStructVal v ++ ',' :: rest) cur = (cur ++ v) :: splitEsc rest [] := by
  intro v
  induction v with
  | nil =>
    intro _ cur rest
    show splitEsc (escapeStructVal [] ++ ',' :: rest) cur = _
    have : escapeStructVal [] = [] := rfl
    rw [this]
    simpa using splitEsc_comma rest cur
  | cons c v' ih =>
    intro h cur rest
    have hc : c ≠ '\\' := by
      intro he
      exact h (by simp [he])
    have hv' : '\\' ∉ v' := by
      intro he
      exact h (by simp [he])
    rw [escapeStructVal_cons]
    by_cases h1 : c = ','
    · subst h1
      rw [if_pos rfl]
      show splitEsc ('\\' :: ',' :: (escapeStructVal v' ++ ',' :: rest)) cur = _
      rw [splitEsc_esc, ih hv' (cur ++ [',']) rest]
      simp
    · rw [if_neg h1]
      by_cases h2 : c = '|'
      · subst h2
        rw [if_pos rfl]
        show splitEsc ('\\' :: '|' :: (escapeStructVal v' ++ ',' :: rest)) cur = _
        rw [splitEsc_esc, ih hv' (cur ++ ['|']) rest]
        simp
      · rw [if_neg h2]
        show splitEsc (c :: (escapeStructVal v' ++ ',' :: rest)) cur = _
        rw [splitEsc_plain c _ cur hc h1, ih hv' (cur ++ [c]) rest]
        simp

theorem replace2_no_first (n1 n2 r : Char) :
    ∀ l : List Char, n1 ∉ l → replace2 n1 n2 r l = l := by
  intro l
  induction l with
  | nil => intro _; rfl
  | cons c rest ih =>
    intro h
    have hc : c ≠ n1 := by
      intro he
      exact h (by simp [he])
    cases rest with
    | nil => rfl
    | cons c2 rest2 =>
      show replace2 n1 n2 r (c :: c2 :: rest2) = _
      unfold replace2
      rw [if_neg (by simp [hc])]
      simp only [List.cons.injEq, true_and]
      exact ih (fun hmem => h (by simp [hmem]))

/-! ## Strip lemmas -/

theorem dropWhile_eq_self_of_all (p : Char → Bool) :
    ∀ l : List Char, (∀ c ∈ l, p c = false) → l.dropWhile p = l := by
  intro l
  induction l with
  | nil => intro _; rfl
  | cons c rest _ =>
    intro h
    rw [List.dropWhile_cons, if_neg (by simp [h c (by simp)])]

theorem dropWhileEnd_append_single (p : Char → Bool) (l : List Char) (c : Char) :
    dropWhileEnd p (l ++ [c]) = if p c then dropWhileEnd p l else l ++ [c] := by
  unfold dropWhileEnd
  rw [List.reverse_append]
  show ((c :: l.reverse).dropWhile p).reverse = _
  rw [List.dropWhile_cons]
  by_cases hp : p c
  · rw [if_pos hp, if_pos hp]
  · rw [if_neg hp, if_neg hp]
    simp

theorem dropWhileEnd_eq_self_of_all (p : Char → Bool) (l : List Char)
    (h : ∀ c ∈ l, p c = false) : dropWhileEnd p l = l := by
  unfold dropWhileEnd
  rw [dropWhile_eq_self_of_all p l.reverse (fun c hc => h c (List.mem_reverse.mp hc))]
  exact l.reverse_reverse

theorem pyStrip_eq_self (p : Char → Bool) (l : List Char)
    (h : ∀ c ∈ l, p c = false) : pyStrip p l = l := by
  unfold pyStrip
  rw [dropWhile_eq_self_of_all p l h, dropWhileEnd_eq_self_of_all p l h]

/-! ## joinSep lemmas -/

theorem joinSep_cons₂ (s : Char) (v w : List Char) (vs : List (List Char)) :
    joinSep s (v :: w :: vs) = v ++ s :: joinSep s (w :: vs) := rfl

theorem joinSep_append_single (s : Char) :
    ∀ (vs : List (List Char)) (v : List Char), vs ≠ [] →
      joinSep s (vs ++ [v]) = joinSep s vs ++ s :: v := by
  intro vs
  induction vs with
  | nil => intro v h; exact absurd rfl h
  | cons x t ih =>
    intro v _
    cases t with
    | nil => rfl
    | cons y t' =>
      show joinSep s (x :: ((y :: t') ++ [v])) = _
      rw [joinSep_cons₂]
      have : (y :: t') ++ [v] = y :: (t' ++ [v]) := rfl
      rw [this]
      show x ++ s :: joinSep s ((y :: t') ++ [v]) = (x ++ s :: joinSep s (y :: t')) ++ s :: v
      rw [ih v (by simp)]
      simp

theorem mem_joinSep (s : Char) :
    ∀ (vs : List (List Char)) (c : Char), c ∈ joinSep s vs →
      c = s ∨ ∃ v ∈ vs, c ∈ v := by
  intro vs
  induction vs with
  | nil => intro c hc; simp [joinSep] at hc
  | cons v t ih =>
    intro c hc
    cases t with
    | nil =>
      right
      exact ⟨v, by simp, by simpa [joinSep] using hc⟩
    | cons w t' =>
      rw [joinSep_cons₂] at hc
      rcases List.mem_append.mp hc with h | h
      · right
        exact ⟨v, by simp, h⟩
      · rcases List.mem_cons.mp h with h' | h'
        · left
          exact h'
        · rcases ih c h' with h'' | ⟨v', hv', hcv'⟩
          · left; exact h''
          · right; exact ⟨v', by simp [hv'], hcv'⟩

theorem head?_joinSep (s : Char) (v : List Char) (vs : List (List Char)) (h : v ≠ []) :
    (joinSep s (v :: vs)).head? = v.head? := by
  cases vs with
  | nil => rfl
  | cons w t =>
    rw [joinSep_cons₂, List.head?_append]
    cases v with
    | nil => exact absurd rfl h
    | cons a v' => rfl

/-! ## Trailing empty values -/

/-- Values with the trailing run of empty values removed; these trailing
empties are exactly what `strip(',')` erases from the encoded string. -/
def dropTrailEmptyVals (vs : List (List Char)) : List (List Char) :=
  (vs.reverse.dropWhile List.isEmpty).reverse

theorem dropTrailEmptyVals_decomp (vs : List (List Char)) :
    ∃ n, vs = dropTrailEmptyVals vs ++ List.replicate n [] := by
  refine ⟨(vs.reverse.takeWhile List.isEmpty).length, ?_⟩
  have h1 := List.takeWhile_append_dropWhile List.isEmpty vs.reverse
  have h2 : vs = (vs.reverse.dropWhile List.isEmpty).reverse
      ++ (vs.reverse.takeWhile List.isEmpty).reverse := by
    conv_lhs => rw [← vs.reverse_reverse, ← h1]
    rw [List.reverse_append]
  have h3 : (vs.reverse.takeWhile List.isEmpty).reverse
      = List.replicate (vs.reverse.takeWhile List.isEmpty).length [] := by
    have hall : ∀ b ∈ (vs.reverse.takeWhile List.isEmpty).reverse, b = ([] : List Char) := by
      intro b hb
      have := List.mem_takeWhile_imp (List.mem_reverse.mp hb)
      simpa [List.isEmpty_iff] using this
    have := List.eq_replicate_of_mem hall
    simpa using this
  rw [← h3]
  exact h2.trans (by rw [h3]; simp [dropTrailEmptyVals, h3])

theorem head?_dropWhile_false (p : Char → Bool) :
    ∀ (l : List Char) (a : Char), (l.dropWhile p).head? = some a → p a = false := by
  intro l
  induction l with
  | nil => intro a h; simp at h
  | cons c rest ih =>
    intro a h
    rw [List.dropWhile_cons] at h
    by_cases hp : p c
    · rw [if_pos hp] at h
      exact ih a h
    · rw [if_neg hp] at h
      obtain rfl : c = a := by simpa using h
      simpa using hp

theorem dropTrailEmptyVals_getLast {vs : List (List Char)} {v : List Char}
    (h : (dropTrailEmptyVals vs).getLast? = some v) : v ≠ [] := by
  have h1 : (dropTrailEmptyVals vs).getLast? = (vs.reverse.dropWhile List.isEmpty).head? := by
    unfold dropTrailEmptyVals
    rw [List.getLast?_reverse]
  rw [h1] at h
  have hdw : ∀ (l : List (List Char)) (a : List Char),
      (l.dropWhile List.isEmpty).head? = some a → a.isEmpty = false := by
    intro l
    induction l with
    | nil => intro a ha; simp at ha
    | cons c rest ih =>
      intro a ha
      rw [List.dropWhile_cons] at ha
      by_cases hp : c.isEmpty
      · rw [if_pos hp] at ha
        exact ih a ha
      · rw [if_neg hp] at ha
        obtain rfl : c = a := by simpa using ha
        simpa using hp
  have := hdw vs.reverse v h
  simpa [List.isEmpty_iff] using this

theorem dropTrailEmptyVals_mem {vs : List (List Char)} {v : List Char}
    (h : v ∈ dropTrailEmptyVals vs) : v ∈ vs := by
  obtain ⟨n, hn⟩ := dropTrailEmptyVals_decomp vs
  rw [hn]
  exact List.mem_append_left _ h

theorem stripEnd_joinSep :
    ∀ (vs : List (List Char)), (∀ v ∈ vs, (',' : Char) ∉ v) →
      dropWhileEnd (· == ',') (joinSep ',' vs) = joinSep ',' (dropTrailEmptyVals vs) := by
  intro vs
  induction vs using List.reverseRecOn with
  | nil => intro _; rfl
  | append_singleton l v ih =>
    intro h
    by_cases hv : v = []
    · subst hv
      cases hl : l with
      | nil => rfl
      | cons x t =>
        rw [← hl]
        have hl' : l ≠ [] := by rw [hl]; simp
        rw [joinSep_append_single ',' l [] hl']
        have : (joinSep ',' l ++ [','] : List Char) = joinSep ',' l ++ [','] := rfl
        rw [show ((',' : Char) :: ([] : List Char)) = [','] from rfl]
        rw [dropWhileEnd_append_single, if_pos (by simp)]
        rw [ih (fun v' hv' => h v' (by simp [hv']))]
        have hdte : dropTrailEmptyVals (l ++ [[]]) = dropTrailEmptyVals l := by
          unfold dropTrailEmptyVals
          rw [List.reverse_append]
          show ((([] : List Char) :: l.reverse).dropWhile List.isEmpty).reverse = _
          rw [List.dropWhile_cons, if_pos (by simp)]
        rw [hdte]
    · obtain ⟨v', a, rfl⟩ : ∃ v' a, v = v' ++ [a] := by
        rcases List.eq_nil_or_concat v with h' | ⟨v', a, h'⟩
        · exact absurd h' hv
        · exact ⟨v', a, by simpa [List.concat_eq_append] using h'⟩
      have ha : (a == ',') = false := by
        have : (',' : Char) ∉ v' ++ [a] := h _ (by simp)
        simp only [List.mem_append, List.mem_singleton] at this
        push_neg at this
        simp [beq_eq_false_iff_ne]
        exact fun he => this.2 he.symm
      have hdte : dropTrailEmptyVals (l ++ [v' ++ [a]]) = l ++ [v' ++ [a]] := by
        unfold dropTrailEmptyVals
        rw [List.reverse_append]
        show (((v' ++ [a]) :: l.reverse).dropWhile List.isEmpty).reverse = _
        rw [List.dropWhile_cons, if_neg (by simp)]
        simp
      rw [hdte]
      cases hl : l with
      | nil =>
        show dropWhileEnd (· == ',') (joinSep ',' [v' ++ [a]]) = joinSep ',' [v' ++ [a]]
        show dropWhileEnd (· == ',') (v' ++ [a]) = v' ++ [a]
        rw [dropWhileEnd_append_single, if_neg (by simp [ha])]
      | cons x t =>
        rw [← hl]
        have hl' : l ≠ [] := by rw [hl]; simp
        rw [joinSep_append_single ',' l (v' ++ [a]) hl']
        have hassoc : joinSep ',' l ++ ',' :: (v' ++ [a])
            = (joinSep ',' l ++ ',' :: v') ++ [a] := by simp
        rw [hassoc, dropWhileEnd_append_single, if_neg (by simp [ha])]

/-! ## Round-trip assembly -/

theorem goodChar_ne (c : Char) (h : goodChar c = true) :
    c ≠ ',' ∧ c ≠ '|' ∧ c ≠ '=' ∧ c ≠ '\\' ∧ c ≠ '{' ∧ c ≠ '}' ∧ isPyWs c = false := by
  simp only [goodChar, Bool.and_eq_true, Bool.not_eq_true', beq_eq_false_iff_ne] at h
  exact ⟨h.1.1.1.1.1.1, h.1.1.1.1.1.2, h.1.1.1.1.2, h.1.1.1.2, h.1.1.2, h.1.2, h.2⟩

theorem jsonFieldStr_map_some :
    ∀ (m : List (String × String)) (f : String),
      jsonFieldStr (m.map (fun p => (p.1, some p.2))) f = (m.lookup f).getD "" := by
  intro m
  induction m with
  | nil => intro f; rfl
  | cons p rest ih =>
    intro f
    obtain ⟨k, v⟩ := p
    by_cases hf : f = k
    · subst hf
      show jsonFieldStr ((f, some v) :: rest.map _) f = (((f, v) :: rest).lookup f).getD ""
      unfold jsonFieldStr
      rw [lookup_cons_self, lookup_cons_self]
      rfl
    · show jsonFieldStr ((k, some v) :: rest.map _) f = (((k, v) :: rest).lookup f).getD ""
      unfold jsonFieldStr
      rw [lookup_cons_ne _ _ _ _ hf, lookup_cons_ne _ _ _ _ hf]
      exact ih f

theorem dropWhile_eq_self_of_head (p : Char → Bool) (l : List Char) (a : Char)
    (h : l.head? = some a) (hp : p a = false) : l.dropWhile p = l := by
  cases l with
  | nil => simp at h
  | cons c rest =>
    obtain rfl : c = a := by simpa using h
    rw [List.dropWhile_cons, if_neg (by simp [hp])]

theorem splitEsc_joinSep_clean :
    ∀ (vs : List (List Char)),
      (∀ v ∈ vs, (',' : Char) ∉ v ∧ ('\\' : Char) ∉ v) →
      (∀ v, vs.getLast? = some v → v ≠ []) →
      splitEsc (joinSep ',' vs) [] = vs := by
  intro vs
  induction vs with
  | nil => intro _ _; rfl
  | cons v t ih =>
    intro hclean hlast
    have hv := hclean v (by simp)
    have hvc : ∀ c ∈ v, c ≠ ',' ∧ c ≠ '\\' := by
      intro c hc
      exact ⟨fun he => hv.1 (he ▸ hc), fun he => hv.2 (he ▸ hc)⟩
    cases t with
    | nil =>
      show splitEsc (joinSep ',' [v]) [] = [v]
      have hne : v ≠ [] := hlast v rfl
      show splitEsc v [] = [v]
      rw [splitEsc_clean_end v hvc []]
      simp [hne]
    | cons w t' =>
      rw [joinSep_cons₂]
      rw [splitEsc_clean_comma v hvc [] _]
      simp only [List.nil_append]
      congr 1
      exact ih (fun v' hv' => hclean v' (by simp [hv']))
        (fun v' hv' => hlast v' (by rw [List.getLast?_cons_cons]; exact hv'))

theorem enumFrom_map_eq_map {α β : Type} (F : Nat × α → β) (G : α → β) :
    ∀ (L : List α) (n : Nat),
      (∀ i a, L.get? i = some a → F (n + i, a) = G a) →
      (List.enumFrom n L).map F = L.map G := by
  intro L
  induction L with
  | nil => intro n _; rfl
  | cons a t ih =>
    intro n h
    show F (n, a) :: (List.enumFrom (n + 1) t).map F = G a :: t.map G
    congr 1
    · have := h 0 a (by simp)
      simpa using this
    · apply ih
      intro i x hx
      have := h (i + 1) x (by simpa using hx)
      rw [show n + (i + 1) = n + 1 + i by omega] at this
      exact this

/-! ## C1: round-trip of the struct codec -/

/-- C1 (amended): for a mapping with keys inside the fixed schema, all
values made of inert characters (no delimiter, escape, brace, `=`, or
whitespace) and a non-empty id value, decoding the encoding returns the
mapping with every missing schema key filled in as the empty string.
The extra hypotheses are forced by the stripping and escape handling of
the decoder (see the counterexample for the empty-id case). -/
theorem struct_roundtrip_amended (m : List (String × String))
    (hkeys : ∀ p ∈ m, p.1 ∈ structFields)
    (hgood : ∀ p ∈ m, p.2.data.all goodChar = true)
    (hid : (m.lookup "id").getD "" ≠ "") :
    convertStructToDict (convertJsonToStruct (m.map (fun p => (p.1, some p.2))))
      = structFields.map (fun f => (f, (m.lookup f).getD "")) := by
  -- goodness of every looked-up value
  have hvals : ∀ f : String, ∀ c ∈ ((m.lookup f).getD "").data, goodChar c = true := by
    intro f c hc
    cases hl : m.lookup f with
    | none => rw [hl] at hc; simp at hc
    | some v =>
      rw [hl] at hc
      have hmem := lookup_mem m f v hl
      exact List.all_eq_true.mp (hgood (f, v) hmem) c hc
  have hgoodv : ∀ v ∈ structFields.map (fun f => ((m.lookup f).getD "").data),
      ∀ c ∈ v, goodChar c = true := by
    intro v hv c hc
    obtain ⟨f, _, rfl⟩ := List.mem_map.mp hv
    exact hvals f c hc
  have hid' : ((m.lookup "id").getD "").data ≠ [] := by
    intro he
    apply hid
    have : (m.lookup "id").getD "" = String.mk ((m.lookup "id").getD "").data := rfl
    rw [this, he]
  -- the encoding is the comma join of the schema-ordered values
  have hm0 : m ≠ [] := by
    intro he
    rw [he] at hid
    simp at hid
  have hmm0 : (m.map (fun p => (p.1, some p.2))).isEmpty = false := by
    cases m with
    | nil => exact absurd rfl hm0
    | cons p t => rfl
  have henc : convertJsonToStruct (m.map (fun p => (p.1, some p.2)))
      = String.mk (joinSep ',' (structFields.map (fun f => ((m.lookup f).getD "").data))) := by
    unfold convertJsonToStruct
    rw [if_neg (by simp [hmm0])]
    congr 2
    apply List.map_congr_left
    intro f _
    rw [jsonFieldStr_map_some]
    apply escapeStructVal_eq_self
    intro c hc
    have hg := goodChar_ne c (hvals f c hc)
    exact ⟨hg.1, hg.2.1⟩
  rw [henc]
  -- head and membership facts about the joined string
  obtain ⟨c0, v0t, hv0⟩ : ∃ c0 v0t, ((m.lookup "id").getD "").data = c0 :: v0t := by
    cases hd : ((m.lookup "id").getD "").data with
    | nil => exact absurd hd hid'
    | cons c0 t => exact ⟨c0, t, rfl⟩
  have hgc0 : goodChar c0 = true := hvals "id" c0 (by rw [hv0]; simp)
  have hvslit : structFields.map (fun f => ((m.lookup f).getD "").data)
      = ((m.lookup "id").getD "").data
        :: (["first_name", "last_name", "email", "gender", "ip_address", "is_active",
            "data"].map (fun f => ((m.lookup f).getD "").data)) := rfl
  have hheadS : (joinSep ',' (structFields.map (fun f => ((m.lookup f).getD "").data))).head?
      = some c0 := by
    rw [hvslit, head?_joinSep ',' _ _ hid', hv0]
    rfl
  have hcommaS : (',' : Char)
      ∈ joinSep ',' (structFields.map (fun f => ((m.lookup f).getD "").data)) := by
    rw [hvslit]
    rw [show (["first_name", "last_name", "email", "gender", "ip_address", "is_active",
        "data"].map (fun f => ((m.lookup f).getD "").data))
      = ((m.lookup "first_name").getD "").data
        :: (["last_name", "email", "gender", "ip_address", "is_active",
            "data"].map (fun f => ((m.lookup f).getD "").data)) from rfl]
    rw [joinSep_cons₂]
    exact List.mem_append_right _ (by simp)
  have hnws : ∀ c ∈ joinSep ',' (structFields.map (fun f => ((m.lookup f).getD "").data)),
      isPyWs c = false := by
    intro c hc
    rcases mem_joinSep ',' _ c hc with rfl | ⟨v, hvmem, hcv⟩
    · decide
    · exact (goodChar_ne c (hgoodv v hvmem c hcv)).2.2.2.2.2.2
  have hSne : joinSep ',' (structFields.map (fun f => ((m.lookup f).getD "").data)) ≠ [] := by
    intro he
    rw [he] at hheadS
    simp at hheadS
  have hc0ne : c0 ≠ ',' ∧ c0 ≠ '{' := by
    have hg := goodChar_ne c0 hgc0
    exact ⟨hg.1, hg.2.2.2.2.1⟩
  -- the degenerate-input guard does not fire
  have hstripS : pyStrip isPyWs
      (joinSep ',' (structFields.map (fun f => ((m.lookup f).getD "").data)))
      = joinSep ',' (structFields.map (fun f => ((m.lookup f).getD "").data)) :=
    pyStrip_eq_self _ _ hnws
  -- the cleaned string
  have hdropc : (joinSep ',' (structFields.map (fun f => ((m.lookup f).getD "").data))).dropWhile
      (· == ',') = joinSep ',' (structFields.map (fun f => ((m.lookup f).getD "").data)) :=
    dropWhile_eq_self_of_head _ _ c0 hheadS (by simp [hc0ne.1])
  have hnocomma : ∀ v ∈ structFields.map (fun f => ((m.lookup f).getD "").data),
      (',' : Char) ∉ v := by
    intro v hv hc
    exact (goodChar_ne ',' (hgoodv v hv ',' hc)).1 rfl
  have hcleanS : cleanedOf (String.mk (joinSep ','
        (structFields.map (fun f => ((m.lookup f).getD "").data))))
      = joinSep ',' (dropTrailEmptyVals
          (structFields.map (fun f => ((m.lookup f).getD "").data))) := by
    show pyStrip isPyWs (pyStrip (· == ',') (pyStrip isPyWs _)) = _
    rw [hstripS]
    show pyStrip isPyWs (dropWhileEnd (· == ',') ((joinSep ',' _).dropWhile (· == ','))) = _
    rw [hdropc, stripEnd_joinSep _ hnocomma]
    apply pyStrip_eq_self
    intro c hc
    rcases mem_joinSep ',' _ c hc with rfl | ⟨v, hvmem, hcv⟩
    · decide
    · exact (goodChar_ne c (hgoodv v (dropTrailEmptyVals_mem hvmem) c hcv)).2.2.2.2.2.2
  -- the brace branch is not taken
  obtain ⟨n0, hdec⟩ := dropTrailEmptyVals_decomp
    (structFields.map (fun f => ((m.lookup f).getD "").data))
  have hdte_ne : dropTrailEmptyVals (structFields.map (fun f => ((m.lookup f).getD "").data))
      ≠ [] := by
    intro he
    rw [he, List.nil_append] at hdec
    have hmem : ((m.lookup "id").getD "").data ∈ List.replicate n0 ([] : List Char) := by
      rw [← hdec, hvslit]
      simp
    exact hid' (List.eq_of_mem_replicate hmem)
  obtain ⟨w0, wt, hw⟩ : ∃ w0 wt,
      dropTrailEmptyVals (structFields.map (fun f => ((m.lookup f).getD "").data))
        = w0 :: wt := by
    cases hd : dropTrailEmptyVals (structFields.map (fun f => ((m.lookup f).getD "").data)) with
    | nil => exact absurd hd hdte_ne
    | cons w0 wt => exact ⟨w0, wt, rfl⟩
  have hw0 : w0 = ((m.lookup "id").getD "").data := by
    have h1 : (structFields.map (fun f => ((m.lookup f).getD "").data)).head?
        = some ((m.lookup "id").getD "").data := by rw [hvslit]; rfl
    rw [hdec, hw] at h1
    simpa using h1
  have hbrace : braceDispatch (String.mk (joinSep ','
      (structFields.map (fun f => ((m.lookup f).getD "").data)))) = false := by
    unfold braceDispatch
    rw [hcleanS, hw, head?_joinSep ',' w0 wt (by rw [hw0]; exact hid')]
    rw [hw0, hv0]
    show ((some c0 == some '{') && _) = false
    rw [show (some c0 == some '{') = false by simp [hc0ne.2]]
    rfl
  -- evaluate the decoder
  unfold convertStructToDict
  rw [if_neg ?hguard]
  case hguard =>
    intro hcond
    simp only [Bool.or_eq_true, decide_eq_true_eq, List.isEmpty_iff] at hcond
    rw [hstripS] at hcond
    rcases hcond with ((((h | h) | h) | h) | h)
    · exact hSne h
    · rw [h] at hheadS
      have hce : c0 = ',' := by simpa using hheadS.symm
      exact hc0ne.1 hce
    · rw [h] at hcommaS
      exact absurd hcommaS (by decide)
    · exact hSne h
    · rw [h] at hcommaS
      exact absurd hcommaS (by decide)
  rw [if_neg (by simp [hbrace])]
  rw [hcleanS]
  -- evaluate the legacy parser on the cleaned string
  simp only [parseCommaSeparatedStruct]
  have hsplit : splitEsc (String.mk (joinSep ',' (dropTrailEmptyVals
      (structFields.map (fun f => ((m.lookup f).getD "").data))))).data [] =
      dropTrailEmptyVals (structFields.map (fun f => ((m.lookup f).getD "").data)) := by
    show splitEsc (joinSep ',' _) [] = _
    apply splitEsc_joinSep_clean
    · intro v hv
      have hvv := hgoodv v (dropTrailEmptyVals_mem hv)
      constructor
      · intro hc
        exact (goodChar_ne ',' (hvv ',' hc)).1 rfl
      · intro hc
        exact (goodChar_ne '\\' (hvv '\\' hc)).2.2.2.1 rfl
    · intro v hv
      exact dropTrailEmptyVals_getLast hv
  rw [hsplit]
  rw [List.enum_eq_enumFrom]
  apply enumFrom_map_eq_map
  intro i f hif
  have hvsget : (structFields.map (fun g => ((m.lookup g).getD "").data)).get? i
      = some (((m.lookup f).getD "").data) := by
    rw [List.get?_map, hif]
    rfl
  simp only [Nat.zero_add]
  by_cases hi : i < (dropTrailEmptyVals
      (structFields.map (fun g => ((m.lookup g).getD "").data))).length
  · have h1 : (dropTrailEmptyVals
        (structFields.map (fun g => ((m.lookup g).getD "").data))).get? i
        = some (((m.lookup f).getD "").data) := by
      rw [← List.get?_append hi, ← hdec]
      exact hvsget
    rw [takenValue_some _ _ _ h1]
    have hnb : ('\\' : Char) ∉ ((m.lookup f).getD "").data := by
      intro hc
      exact (goodChar_ne '\\' (hvals f '\\' hc)).2.2.2.1 rfl
    rw [replace2_no_first _ _ _ _ hnb, replace2_no_first _ _ _ _ hnb]
  · have h2 : (dropTrailEmptyVals
        (structFields.map (fun g => ((m.lookup g).getD "").data))).get? i = none :=
      List.get?_eq_none.mpr (Nat.le_of_not_lt hi)
    rw [takenValue_none _ _ h2]
    have h3 : (List.replicate n0 ([] : List Char)).get?
        (i - (dropTrailEmptyVals
          (structFields.map (fun g => ((m.lookup g).getD "").data))).length)
        = some (((m.lookup f).getD "").data) := by
      rw [← List.get?_append_right (Nat.le_of_not_lt hi), ← hdec]
      exact hvsget
    have h4 : ((m.lookup f).getD "").data ∈ List.replicate n0 ([] : List Char) :=
      List.get?_mem h3
    have h5 := List.eq_of_mem_replicate h4
    have h6 : (m.lookup f).getD "" = "" := by
      have heta : (m.lookup f).getD "" = String.mk ((m.lookup f).getD "").data := rfl
      rw [heta, h5]
    rw [h6]

/-! ## C8: escaping correctness for the legacy form -/

/-- C8 (amended): a backslash-free value containing a literal comma and
pipe is recovered exactly by encoding it into the id slot and decoding
the result with the legacy comma-separated parser.  Backslash-freedom is
forced: the scanner consumes backslashes as escape markers (see the
counterexample). -/
theorem escape_roundtrip_amended (v : String)
    (h1 : ',' ∈ v.data) (h2 : '|' ∈ v.data) (h3 : '\\' ∉ v.data) :
    (parseCommaSeparatedStruct (convertJsonToStruct [("id", some v)])).lookup "id"
      = some v := by
  have henc : convertJsonToStruct [("id", some v)]
      = String.mk (escapeStructVal v.data ++ ',' :: [',', ',', ',', ',', ',', ',']) := rfl
  rw [henc]
  simp only [parseCommaSeparatedStruct]
  have hsplit : splitEsc (String.mk
        (escapeStructVal v.data ++ ',' :: [',', ',', ',', ',', ',', ','])).data []
      = v.data :: [[], [], [], [], [], []] := by
    show splitEsc (escapeStructVal v.data ++ ',' :: [',', ',', ',', ',', ',', ',']) [] = _
    rw [splitEsc_escaped_comma v.data h3 [] _]
    simp only [List.nil_append]
    congr 1
  rw [hsplit]
  have h0 : takenValue (v.data :: [[], [], [], [], [], []]) 0
      = String.mk (replace2 '\\' '|' '|' (replace2 '\\' ',' ',' v.data)) :=
    takenValue_some _ 0 v.data rfl
  rw [show structFields.enum = [(0, "id"), (1, "first_name"), (2, "last_name"), (3, "email"),
      (4, "gender"), (5, "ip_address"), (6, "is_active"), (7, "data")] from rfl]
  simp only [List.map_cons, List.map_nil]
  rw [lookup_cons_self, h0, replace2_no_first _ _ _ _ h3, replace2_no_first _ _ _ _ h3]

/-! ## C9: schema-key invariant of persisted cells -/

/-- C9 (amended): any cell written by the store (the struct encoding of
an arbitrary in-memory row) decodes to a mapping whose keys are a subset
of the fixed schema, provided the cell is not dispatched to the Athena
brace-form parser; a row whose id value itself looks like a brace struct
escapes this (see the counterexample). -/
theorem convertStructToDict_eq (s : String) :
    convertStructToDict s =
      if (s.data.isEmpty || decide (pyStrip isPyWs s.data = [','])
          || decide (pyStrip isPyWs s.data = ['{', '}'])
          || decide (pyStrip isPyWs s.data = [])
          || decide (pyStrip isPyWs s.data = "null".data)) = true then []
      else if braceDispatch s then parseAthenaStructFormat (String.mk (cleanedOf s))
      else parseCommaSeparatedStruct (String.mk (cleanedOf s)) := rfl

theorem struct_schema_keys_amended (r : Row)
    (hnb : braceDispatch (convertJsonToStruct r) = false) :
    ∀ k ∈ (convertStructToDict (convertJsonToStruct r)).map Prod.fst, k ∈ structFields := by
  intro k hk
  rw [convertStructToDict_eq] at hk
  by_cases hg : (((convertJsonToStruct r).data.isEmpty
      || decide (pyStrip isPyWs (convertJsonToStruct r).data = [','])
      || decide (pyStrip isPyWs (convertJsonToStruct r).data = ['{', '}'])
      || decide (pyStrip isPyWs (convertJsonToStruct r).data = [])
      || decide (pyStrip isPyWs (convertJsonToStruct r).data = "null".data)) = true)
  · rw [if_pos hg] at hk
    simp at hk
  · rw [if_neg hg, if_neg (by simp [hnb])] at hk
    rw [keys_parseCommaSeparatedStruct] at hk
    exact hk

/-! ## Counterexamples and witnesses -/

/-- C1 (counterexample to the claim as stated): the mapping with only
`first_name = A` satisfies every constraint of the claim (keys inside
the schema, values free of comma, pipe and equals), yet decoding its
encoding yields `id = A` instead of `first_name = A`: the encoder emits
a leading empty id slot whose comma the decoder strips away, shifting
every later value one slot left. -/
theorem struct_roundtrip_claim_counterexample :
    (∀ p ∈ [("first_name", "A")], p.1 ∈ structFields)
    ∧ (∀ p ∈ [("first_name", "A")], ∀ c ∈ p.2.data, c ≠ ',' ∧ c ≠ '|' ∧ c ≠ '=')
    ∧ convertStructToDict (convertJsonToStruct
        ([("first_name", "A")].map (fun p => (p.1, some p.2))))
      ≠ structFields.map (fun f => (f, ([("first_name", "A")].lookup f).getD "")) :=
  ⟨by decide, by decide, by decide⟩

/-- C1 (witness): the amended round trip at a concrete mapping. -/
theorem struct_roundtrip_amended_witness :
    ((∀ p ∈ [("id", "1"), ("email", "a@b")], p.1 ∈ structFields)
      ∧ (∀ p ∈ [("id", "1"), ("email", "a@b")], p.2.data.all goodChar = true)
      ∧ (([("id", "1"), ("email", "a@b")].lookup "id").getD "" ≠ ""))
    ∧ convertStructToDict (convertJsonToStruct
        ([("id", "1"), ("email", "a@b")].map (fun p => (p.1, some p.2))))
      = structFields.map (fun f => (f, ([("id", "1"), ("email", "a@b")].lookup f).getD "")) :=
  ⟨⟨by decide, by decide, by decide⟩,
    struct_roundtrip_amended [("id", "1"), ("email", "a@b")]
      (by decide) (by decide) (by decide)⟩

/-- C2 (witness): the spec's partial-merge example on schema columns:
the empty decoded `email` does not overwrite, `first_name` is updated. -/
theorem update_merge_semantics_witness :
    (applyLogRow [("1", [("id", "1"), ("email", "a@x.com"), ("first_name", "Bob")])]
        [("operation", "UPDATE"), ("row_identifier", "1"), ("after", "1,Carol,,,,,,")]).lookup "1"
      = some [("id", "1"), ("email", "a@x.com"), ("first_name", "Carol")] := by
  have h := update_merge_semantics
    [("1", [("id", "1"), ("email", "a@x.com"), ("first_name", "Bob")])]
    [("operation", "UPDATE"), ("row_identifier", "1"), ("after", "1,Carol,,,,,,")]
    "1" [("id", "1"), ("email", "a@x.com"), ("first_name", "Bob")]
    (convertStructToDict (afterStrOf
      [("operation", "UPDATE"), ("row_identifier", "1"), ("after", "1,Carol,,,,,,")]))
    (by decide) (by decide) (by decide) (by decide) rfl
  exact h.1.trans (by decide)

/-- C4 (witness): one differing row yields exactly one UPDATE record
with the spec's row identifier. -/
theorem differ_emits_iff_witness :
    (([[("id", some "1"), ("name", some "A")]] : List Row).length
        = ([[("id", some "1"), ("name", some "B")]] : List Row).length)
    ∧ ((generateChangeLogs "db" "t" [[("id", some "1"), ("name", some "A")]]
          [[("id", some "1"), ("name", some "B")]] "u" "ts" "sid" (fun s => s)).length
        = ([[("id", some "1"), ("name", some "A")]].zip
            [[("id", some "1"), ("name", some "B")]]).countP
            (fun p => !(pyDictEq (normalizeRow p.1) (normalizeRow p.2))))
    ∧ (∀ c ∈ generateChangeLogs "db" "t" [[("id", some "1"), ("name", some "A")]]
          [[("id", some "1"), ("name", some "B")]] "u" "ts" "sid" (fun s => s),
        c.operation = "UPDATE") :=
  ⟨by decide,
    (differ_emits_iff "db" "t" "u" "ts" "sid" (fun s => s)
      [[("id", some "1"), ("name", some "A")]]
      [[("id", some "1"), ("name", some "B")]] (by decide)).2.2.1,
    (differ_emits_iff "db" "t" "u" "ts" "sid" (fun s => s)
      [[("id", some "1"), ("name", some "A")]]
      [[("id", some "1"), ("name", some "B")]] (by decide)).2.1⟩

/-- C5 (witness): a missing log table returns the original snapshot. -/
theorem reconcile_fallbacks_witness :
    getTableWithChanges (some [[("id", "1")]]) [] true (some "x") [] = some [[("id", "1")]] :=
  (reconcile_fallbacks [[("id", "1")]] [] true (some "x") []).1 (by decide)

/-- C6 (witness): a DELETE after an UPDATE for the same identifier
leaves no binding for it. -/
theorem delete_removes_row_witness :
    ((([[("operation", "UPDATE"), ("row_identifier", "1"), ("after", "1,Z,,,,,,")]]
        ++ [("operation", "DELETE"), ("row_identifier", "1"), ("after", "")]
          :: []).foldl applyLogRow [("1", [("id", "1"), ("first_name", "Bob")])]).lookup "1")
      = none :=
  delete_removes_row [("1", [("id", "1"), ("first_name", "Bob")])]
    [[("operation", "UPDATE"), ("row_identifier", "1"), ("after", "1,Z,,,,,,")]]
    [] [("operation", "DELETE"), ("row_identifier", "1"), ("after", "")] "1"
    (by decide) (by decide) (by decide) (by intro e he; cases he)

/-- C7 (witness): three original rows against two edited rows emit at
most two records. -/
theorem differ_truncation_witness :
    (generateChangeLogs "db" "t"
        [[("id", some "1")], [("id", some "2")], [("id", some "3")]]
        [[("id", some "9")], [("id", some "2")]] "u" "ts" "sid" (fun s => s)).length ≤ 2 := by
  have h := differ_truncation "db" "t" "u" "ts" "sid" (fun s => s)
    [[("id", some "1")], [("id", some "2")], [("id", some "3")]]
    [[("id", some "9")], [("id", some "2")]] (by decide)
  simpa using h.2

/-- C8 (counterexample to the claim as stated): the value holding a
backslash, a comma and a pipe is corrupted by the round trip, because
the scanner consumes the data backslash as an escape marker. -/
theorem escape_roundtrip_counterexample :
    (',' ∈ "\\,|".data) ∧ ('|' ∈ "\\,|".data)
    ∧ (parseCommaSeparatedStruct (convertJsonToStruct [("id", some "\\,|")])).lookup "id"
        ≠ some "\\,|" :=
  ⟨by decide, by decide, by decide⟩

/-- C8 (witness): the amended escaping round trip at a concrete value
containing a comma and a pipe. -/
theorem escape_roundtrip_amended_witness :
    ((',' ∈ "a,b|c".data) ∧ ('|' ∈ "a,b|c".data) ∧ ('\\' ∉ "a,b|c".data))
    ∧ (parseCommaSeparatedStruct (convertJsonToStruct [("id", some "a,b|c")])).lookup "id"
        = some "a,b|c" :=
  ⟨⟨by decide, by decide, by decide⟩,
    escape_roundtrip_amended "a,b|c" (by decide) (by decide) (by decide)⟩

/-- C9 (counterexample to the claim as stated): a row whose id value is
itself a brace-shaped `key=value` text persists a cell that the decoder
dispatches to the Athena brace parser, yielding the key `x` outside the
fixed schema. -/
theorem struct_schema_keys_counterexample :
    "x" ∈ (convertStructToDict (convertJsonToStruct
        [("id", some "\x7bx=1 yy=2\x7d")])).map Prod.fst
    ∧ "x" ∉ structFields :=
  ⟨by decide, by decide⟩

/-- C9 (witness): the amended schema-key invariant at a concrete row. -/
theorem struct_schema_keys_amended_witness :
    (braceDispatch (convertJsonToStruct [("id", some "7"), ("zzz", some "9")]) = false)
    ∧ ∀ k ∈ (convertStructToDict (convertJsonToStruct
        [("id", some "7"), ("zzz", some "9")])).map Prod.fst, k ∈ structFields :=
  ⟨by decide, struct_schema_keys_amended [("id", some "7"), ("zzz", some "9")] (by decide)⟩

/-- C10 (witness): two original rows sharing id `1` collapse to the last
one; a log targeting another identifier leaves that binding alone. -/
theorem duplicate_identifier_index_witness :
    applyChangesFromLog
      [[("id", "1"), ("a", "x")], [("id", "1"), ("a", "y")]]
      [[("operation", "UPDATE"), ("row_identifier", "2"), ("after", "2,B,,,,,,")]]
      = some [[("id", "1"), ("a", "y")]] := by
  have h := duplicate_identifier_index
    [[("id", "1"), ("a", "x")], [("id", "1"), ("a", "y")]]
    [[("operation", "UPDATE"), ("row_identifier", "2"), ("after", "2,B,,,,,,")]]
    "id" "1" (by decide) (by decide) (by decide)
  exact h.1.trans (by decide)

end AthenaService
